import Mathlib

/-!
Verification of the trie flatten/unflatten core of `ipcheck-rs`
(`src/bin/ipcheck.rs`), together with a spec-modelled account of the
canonical prefix-set simplification the binary delegates to its library
crate, and a model of the `main` pipeline's all-or-nothing behaviour.
-/

set_option maxHeartbeats 1000000

namespace Ipcheck

/-- A binary trie node, mirroring the library type used by the source:
`IpTrieNode { children: [Option<Box<IpTrieNode>>; 2] }`.
The first component is `children[0]` (the bit-0, "left" child), the second
is `children[1]` (the bit-1, "right" child).  A node with two `none`
children is terminal. -/
inductive Trie where
  | node : Option Trie → Option Trie → Trie

/-- Custom induction principle for `Trie` (it is a nested inductive, so we
give the handy form directly, by well-founded recursion on `sizeOf`). -/
theorem Trie.indOn (P : Trie → Prop)
    (h : ∀ lc rc, (∀ t, lc = some t → P t) → (∀ t, rc = some t → P t) →
      P (Trie.node lc rc)) :
    ∀ t, P t
  | .node lc rc =>
    h lc rc (fun t ht => Trie.indOn P h t) (fun t ht => Trie.indOn P h t)
termination_by t => sizeOf t
decreasing_by
  all_goals (subst ht; simp; try omega)

/-- Node count of a trie. -/
def Trie.size : Trie → Nat
  | .node lc rc =>
    1 + (match lc with | none => 0 | some t => t.size)
      + (match rc with | none => 0 | some t => t.size)

/-- Node count of an optional child subtree. -/
def osize : Option Trie → Nat
  | none => 0
  | some t => t.size

theorem Trie.size_node (lc rc : Option Trie) :
    (Trie.node lc rc).size = 1 + osize lc + osize rc := by
  cases lc <;> cases rc <;> rfl

theorem Trie.size_pos (t : Trie) : 1 ≤ t.size := by
  cases t with
  | node lc rc => rw [Trie.size_node]; omega

/-- The `while let Some((node, idx)) = stack.pop()` loop of `trie_to_nodes`.
The head of the first list is the top of the Rust `Vec` stack; `nodes` is
the output vector being built.  Each iteration pops `(node, idx)`, and for
the right child (first) then the left child: if present, allocates the next
free slot `nodes.len() / 2`, appends `[0, 0]`, pushes the child, and records
the slot in the parent's entry (`nodes[2*idx+1]` resp. `nodes[2*idx]`). -/
def flattenLoop : List (Trie × Nat) → List Nat → List Nat
  | [], nodes => nodes
  | (Trie.node lc rc, idx) :: rest, nodes =>
    match lc, rc with
    | none, none => flattenLoop rest nodes
    | none, some rt =>
      flattenLoop ((rt, nodes.length / 2) :: rest)
        ((nodes ++ [0, 0]).set (2 * idx + 1) (nodes.length / 2))
    | some lt, none =>
      flattenLoop ((lt, nodes.length / 2) :: rest)
        ((nodes ++ [0, 0]).set (2 * idx) (nodes.length / 2))
    | some lt, some rt =>
      flattenLoop
        ((lt, (nodes.length + 2) / 2) :: (rt, nodes.length / 2) :: rest)
        ((((nodes ++ [0, 0]).set (2 * idx + 1) (nodes.length / 2)) ++ [0, 0]).set
          (2 * idx) ((nodes.length + 2) / 2))
termination_by stack _ => (stack.map fun p => sizeOf p.1).sum
decreasing_by
  all_goals (simp; try omega)

/-- `trie_to_nodes` from the source: slot 0 is reserved for the root
(`nodes` starts as `[0, 0]`), the stack starts as `[(trie, 0)]`. -/
def trie_to_nodes (t : Trie) : List Nat := flattenLoop [(t, 0)] [0, 0]

/-- Straight-line recursion equivalent to processing one stack entry of the
flatten loop to completion (the loop is depth-first, so everything pushed
while handling `(t, idx)` is finished before the entries below it). -/
def flattenTree : Trie → Nat → List Nat → List Nat
  | .node none none, _, nodes => nodes
  | .node none (some rt), idx, nodes =>
    flattenTree rt (nodes.length / 2)
      ((nodes ++ [0, 0]).set (2 * idx + 1) (nodes.length / 2))
  | .node (some lt) none, idx, nodes =>
    flattenTree lt (nodes.length / 2)
      ((nodes ++ [0, 0]).set (2 * idx) (nodes.length / 2))
  | .node (some lt) (some rt), idx, nodes =>
    flattenTree rt (nodes.length / 2)
      (flattenTree lt ((nodes.length + 2) / 2)
        ((((nodes ++ [0, 0]).set (2 * idx + 1) (nodes.length / 2)) ++ [0, 0]).set
          (2 * idx) ((nodes.length + 2) / 2)))

/-- Decomposition: the flatten loop handles the top stack entry (and all of
its descendants) before touching the rest of the stack. -/
theorem flattenLoop_cons (t : Trie) :
    ∀ (idx : Nat) (rest : List (Trie × Nat)) (nodes : List Nat),
      flattenLoop ((t, idx) :: rest) nodes = flattenLoop rest (flattenTree t idx nodes) := by
  induction t using Trie.indOn with
  | h lc rc ihl ihr =>
    intro idx rest nodes
    cases lc with
    | none =>
      cases rc with
      | none => rw [flattenLoop, flattenTree]
      | some rt => rw [flattenLoop, flattenTree, ihr rt rfl]
    | some lt =>
      cases rc with
      | none => rw [flattenLoop, flattenTree, ihl lt rfl]
      | some rt => rw [flattenLoop, flattenTree, ihl lt rfl, ihr rt rfl]

theorem trie_to_nodes_eq (t : Trie) : trie_to_nodes t = flattenTree t 0 [0, 0] := by
  rw [trie_to_nodes, flattenLoop_cons, flattenLoop]

/-- Length of the flattened output: each node of `t` other than the one whose
slot is already reserved contributes two fresh slots. -/
theorem flattenTree_length (t : Trie) :
    ∀ (idx : Nat) (nodes : List Nat),
      (flattenTree t idx nodes).length + 2 = nodes.length + 2 * t.size := by
  induction t using Trie.indOn with
  | h lc rc ihl ihr =>
    intro idx nodes
    cases lc with
    | none =>
      cases rc with
      | none => rw [flattenTree, Trie.size_node]; simp [osize]
      | some rt =>
        rw [flattenTree, Trie.size_node]
        have h1 := ihr rt rfl (nodes.length / 2)
          ((nodes ++ [0, 0]).set (2 * idx + 1) (nodes.length / 2))
        simp at h1
        simp [osize]
        omega
    | some lt =>
      cases rc with
      | none =>
        rw [flattenTree, Trie.size_node]
        have h1 := ihl lt rfl (nodes.length / 2)
          ((nodes ++ [0, 0]).set (2 * idx) (nodes.length / 2))
        simp at h1
        simp [osize]
        omega
      | some rt =>
        rw [flattenTree, Trie.size_node]
        have h1 := ihl lt rfl ((nodes.length + 2) / 2)
          ((((nodes ++ [0, 0]).set (2 * idx + 1) (nodes.length / 2)) ++ [0, 0]).set
            (2 * idx) ((nodes.length + 2) / 2))
        have h2 := ihr rt rfl (nodes.length / 2)
          (flattenTree lt ((nodes.length + 2) / 2)
            ((((nodes ++ [0, 0]).set (2 * idx + 1) (nodes.length / 2)) ++ [0, 0]).set
              (2 * idx) ((nodes.length + 2) / 2)))
        simp at h1 h2
        simp [osize]
        omega

theorem trie_to_nodes_length (t : Trie) :
    (trie_to_nodes t).length = 2 * t.size := by
  have h := flattenTree_length t 0 [0, 0]
  rw [trie_to_nodes_eq]
  simp at h
  omega

/-! ### The unflattener (`nodes_to_trie`)

The Rust cache is a `BTreeMap<usize, Box<IpTrieNode>>`; we model it as an
association list.  `cremove` models `BTreeMap::remove` (which returns the
removed value), `cinsert` models `BTreeMap::insert`; the `unwrap`s of the
source become `Option`, with `none` standing for a panic. -/

/-- `BTreeMap::remove`: take out the entry with the given key, returning its
value and the remaining map, or `none` when the key is absent. -/
def cremove (a : Nat) : List (Nat × Trie) → Option (Trie × List (Nat × Trie))
  | [] => none
  | (k, t) :: rest =>
    if k = a then some (t, rest)
    else
      match cremove a rest with
      | none => none
      | some (v, rest') => some (v, (k, t) :: rest')

/-- Remove the first entry with the given key (the map `cremove` leaves
behind, independent of whether the key is present). -/
def eraseKey (a : Nat) : List (Nat × Trie) → List (Nat × Trie)
  | [] => []
  | (k, t) :: rest => if k = a then rest else (k, t) :: eraseKey a rest

/-- `BTreeMap::insert`: replace any existing entry with the given key. -/
def cinsert (a : Nat) (v : Trie) (c : List (Nat × Trie)) : List (Nat × Trie) :=
  (a, v) :: eraseKey a c

/-- One child slot of the loop body of `nodes_to_trie`: a `0` index means
"no child", a nonzero index is removed from the cache (`none` when the
`unwrap` of `cache.remove(&idx)` would panic). -/
def takeChild (idx : Nat) (cache : List (Nat × Trie)) :
    Option (Option Trie × List (Nat × Trie)) :=
  if idx = 0 then some (none, cache)
  else (cremove idx cache).map fun p => (some p.1, p.2)

/-- The body of the `for i in (0..node_count).rev()` loop of `nodes_to_trie`
for one index `i`: read `nodes[2*i]` and `nodes[2*i+1]`, take the cached
child for each (left first, as in the source), and insert the newly built
node under key `i`. -/
def unflattenStep (nodes : List Nat) (i : Nat) (cache : List (Nat × Trie)) :
    Option (List (Nat × Trie)) :=
  match takeChild (nodes.getD (i * 2) 0) cache with
  | none => none
  | some (lc, c1) =>
    match takeChild (nodes.getD (i * 2 + 1) 0) c1 with
    | none => none
    | some (rc, c2) => some (cinsert i (Trie.node lc rc) c2)

theorem takeChild_zero (c : List (Nat × Trie)) : takeChild 0 c = some (none, c) := by
  rw [takeChild, if_pos rfl]

theorem takeChild_found {idx : Nat} (h : ¬ idx = 0) {c : List (Nat × Trie)}
    {v : Trie} {c' : List (Nat × Trie)} (hrem : cremove idx c = some (v, c')) :
    takeChild idx c = some (some v, c') := by
  rw [takeChild, if_neg h, hrem]
  rfl

/-- The countdown loop: `unflattenLoop nodes k cache` processes the indices
`k-1, k-2, ..., 0` in that order. -/
def unflattenLoop (nodes : List Nat) : Nat → List (Nat × Trie) → Option (List (Nat × Trie))
  | 0, cache => some cache
  | k + 1, cache =>
    match unflattenStep nodes k cache with
    | none => none
    | some cache' => unflattenLoop nodes k cache'

/-- `nodes_to_trie` from the source (the `#[cfg(test)]` verification
direction): run the countdown over all `nodes.len() / 2` indices, then
`cache.remove(&0).unwrap()`. -/
def nodes_to_trie (nodes : List Nat) : Option Trie :=
  match unflattenLoop nodes (nodes.length / 2) [] with
  | none => none
  | some cache =>
    match cremove 0 cache with
    | none => none
    | some (t, _) => some t

/-! ### Instrumented tries

To reason about the flattener we decorate each trie node with the slot
index `trie_to_nodes` allocates for it. -/

/-- A trie node together with the slot index allocated for it:
`tip` has no children, `lonly`/`ronly` have only a left/right child,
`both` has the two children in (left, right) order. -/
inductive ITrie where
  | tip : Nat → ITrie
  | lonly : Nat → ITrie → ITrie
  | ronly : Nat → ITrie → ITrie
  | both : Nat → ITrie → ITrie → ITrie

/-- The slot index of the root node. -/
def ITrie.lab : ITrie → Nat
  | .tip i => i
  | .lonly i _ => i
  | .ronly i _ => i
  | .both i _ _ => i

/-- Forget the slot indices. -/
def ITrie.strip : ITrie → Trie
  | .tip _ => .node none none
  | .lonly _ c => .node (some c.strip) none
  | .ronly _ c => .node none (some c.strip)
  | .both _ cl cr => .node (some cl.strip) (some cr.strip)

/-- Preorder list of all slot indices of the tree. -/
def ITrie.labels : ITrie → List Nat
  | .tip i => [i]
  | .lonly i c => i :: c.labels
  | .ronly i c => i :: c.labels
  | .both i cl cr => i :: (cl.labels ++ cr.labels)

/-- Every child's slot index strictly exceeds its parent's. -/
def ITrie.Inc : ITrie → Prop
  | .tip _ => True
  | .lonly i c => i < c.lab ∧ c.Inc
  | .ronly i c => i < c.lab ∧ c.Inc
  | .both i cl cr => i < cl.lab ∧ i < cr.lab ∧ cl.Inc ∧ cr.Inc

/-- Wherever both children exist, the right child's slot was allocated
before the left child's. -/
def ITrie.RightFirst : ITrie → Prop
  | .tip _ => True
  | .lonly _ c => c.RightFirst
  | .ronly _ c => c.RightFirst
  | .both _ cl cr => cr.lab < cl.lab ∧ cl.RightFirst ∧ cr.RightFirst

/-- `N` holds, at each node's pair of slots `(2i, 2i+1)`, the slot indices
of that node's children, with `0` standing for a missing child. -/
def Agrees (N : List Nat) : ITrie → Prop
  | .tip i => N.getD (2 * i) 0 = 0 ∧ N.getD (2 * i + 1) 0 = 0
  | .lonly i c => N.getD (2 * i) 0 = c.lab ∧ N.getD (2 * i + 1) 0 = 0 ∧ Agrees N c
  | .ronly i c => N.getD (2 * i) 0 = 0 ∧ N.getD (2 * i + 1) 0 = c.lab ∧ Agrees N c
  | .both i cl cr =>
      N.getD (2 * i) 0 = cl.lab ∧ N.getD (2 * i + 1) 0 = cr.lab ∧
        Agrees N cl ∧ Agrees N cr

theorem ITrie.lab_mem_labels (it : ITrie) : it.lab ∈ it.labels := by
  cases it <;> simp [ITrie.lab, ITrie.labels]

/-! ### Where the flattener writes

`flattenTree t idx nodes` only modifies the two slots of `idx` and
positions appended past the original end of `nodes`. -/

theorem getD_pad (l : List Nat) (p : Nat) : (l ++ [0, 0]).getD p 0 = l.getD p 0 := by
  rcases lt_or_ge p l.length with h | h
  · rw [List.getD_eq_getElem?_getD, List.getD_eq_getElem?_getD,
      List.getElem?_append_left h]
  · rw [List.getD_eq_getElem?_getD, List.getD_eq_getElem?_getD,
      List.getElem?_append_right h, List.getElem?_eq_none_iff.mpr h]
    have hk : ∀ k : Nat, (([0, 0] : List Nat)[k]?).getD 0 = 0 := by
      intro k
      match k with
      | 0 => rfl
      | 1 => rfl
      | n + 2 => rfl
    rw [hk]
    rfl

theorem getD_set_ne (l : List Nat) (i p v : Nat) (h : i ≠ p) :
    (l.set i v).getD p 0 = l.getD p 0 := by
  rw [List.getD_eq_getElem?_getD, List.getD_eq_getElem?_getD, List.getElem?_set_ne h]

theorem getD_set_eq (l : List Nat) (i v : Nat) (h : i < l.length) :
    (l.set i v).getD i 0 = v := by
  rw [List.getD_eq_getElem?_getD, List.getElem?_set_eq h]
  rfl

theorem flattenTree_stable (t : Trie) :
    ∀ (idx m : Nat) (nodes : List Nat) (p : Nat),
      nodes.length = 2 * m → idx < m → p < 2 * m → p ≠ 2 * idx → p ≠ 2 * idx + 1 →
      (flattenTree t idx nodes).getD p 0 = nodes.getD p 0 := by
  induction t using Trie.indOn with
  | h lc rc ihl ihr =>
    intro idx m nodes p hlen hidx hp hp1 hp2
    have hm : nodes.length / 2 = m := by omega
    cases lc with
    | none =>
      cases rc with
      | none => rw [flattenTree]
      | some rt =>
        rw [flattenTree, hm]
        rw [ihr rt rfl m (m + 1) _ p (by simp [hlen]; omega) (by omega) (by omega)
          (by omega) (by omega)]
        rw [getD_set_ne _ _ _ _ (by omega), getD_pad]
    | some lt =>
      cases rc with
      | none =>
        rw [flattenTree, hm]
        rw [ihl lt rfl m (m + 1) _ p (by simp [hlen]; omega) (by omega) (by omega)
          (by omega) (by omega)]
        rw [getD_set_ne _ _ _ _ (by omega), getD_pad]
      | some rt =>
        rw [flattenTree, hm, show (nodes.length + 2) / 2 = m + 1 from by omega]
        set nodes2 := (((nodes ++ [0, 0]).set (2 * idx + 1) m) ++ [0, 0]).set
          (2 * idx) (m + 1) with hnodes2
        have hlen2 : nodes2.length = 2 * (m + 2) := by simp [hnodes2, hlen]; omega
        have hlenL : (flattenTree lt (m + 1) nodes2).length + 2 =
            nodes2.length + 2 * lt.size := flattenTree_length lt (m + 1) nodes2
        rw [ihr rt rfl m (m + 1 + lt.size) _ p (by omega) (by omega) (by omega)
          (by omega) (by omega)]
        rw [ihl lt rfl (m + 1) (m + 2) nodes2 p hlen2 (by omega) (by omega)
          (by omega) (by omega)]
        rw [hnodes2, getD_set_ne _ _ _ _ (by omega), getD_pad,
          getD_set_ne _ _ _ _ (by omega), getD_pad]

/-- `Agrees` only inspects the slots of the tree's own nodes. -/
theorem Agrees_congr {N N' : List Nat} :
    ∀ it : ITrie,
      (∀ j ∈ it.labels, N'.getD (2 * j) 0 = N.getD (2 * j) 0 ∧
        N'.getD (2 * j + 1) 0 = N.getD (2 * j + 1) 0) →
      Agrees N it → Agrees N' it := by
  intro it
  induction it with
  | tip i =>
    intro h ha
    simp only [Agrees] at ha ⊢
    obtain ⟨h1, h2⟩ := h i (by simp [ITrie.labels])
    exact ⟨h1.trans ha.1, h2.trans ha.2⟩
  | lonly i c ih =>
    intro h ha
    simp only [Agrees] at ha ⊢
    obtain ⟨h1, h2⟩ := h i (by simp [ITrie.labels])
    exact ⟨h1.trans ha.1, h2.trans ha.2.1,
      ih (fun j hj => h j (by simp [ITrie.labels, hj])) ha.2.2⟩
  | ronly i c ih =>
    intro h ha
    simp only [Agrees] at ha ⊢
    obtain ⟨h1, h2⟩ := h i (by simp [ITrie.labels])
    exact ⟨h1.trans ha.1, h2.trans ha.2.1,
      ih (fun j hj => h j (by simp [ITrie.labels, hj])) ha.2.2⟩
  | both i cl cr ihl ihr =>
    intro h ha
    simp only [Agrees] at ha ⊢
    obtain ⟨h1, h2⟩ := h i (by simp [ITrie.labels])
    exact ⟨h1.trans ha.1, h2.trans ha.2.1,
      ihl (fun j hj => h j (by simp [ITrie.labels, hj])) ha.2.2.1,
      ihr (fun j hj => h j (by simp [ITrie.labels, hj])) ha.2.2.2⟩

/-- Flattening a later sibling does not disturb the recorded encoding of an
already-flattened subtree. -/
theorem Agrees_flattenTree (t' : Trie) (it : ITrie) (idx' m' : Nat)
    (nodes' : List Nat) (hlen : nodes'.length = 2 * m') (hidx : idx' < m')
    (hsub : ∀ j ∈ it.labels, j < m') (hnotin : idx' ∉ it.labels)
    (h : Agrees nodes' it) : Agrees (flattenTree t' idx' nodes') it := by
  refine Agrees_congr it (fun j hj => ?_) h
  have hjm : j < m' := hsub j hj
  have hne : j ≠ idx' := fun he => hnotin (he ▸ hj)
  constructor
  · exact flattenTree_stable t' idx' m' nodes' (2 * j) hlen hidx (by omega)
      (by omega) (by omega)
  · exact flattenTree_stable t' idx' m' nodes' (2 * j + 1) hlen hidx (by omega)
      (by omega) (by omega)

/-! ### Main specification of the flattener -/

/-- Flattening `t` into the reserved (still zeroed) slot `idx` of an
even-length array yields an indexed tree over `t` whose labels are `idx`
plus the freshly allocated contiguous block, with child labels exceeding
parent labels, right children allocated before left children, and all child
links recorded in the resulting array. -/
theorem flattenTree_spec (t : Trie) :
    ∀ (idx m : Nat) (nodes : List Nat),
      nodes.length = 2 * m → idx < m →
      nodes.getD (2 * idx) 0 = 0 → nodes.getD (2 * idx + 1) 0 = 0 →
      ∃ it : ITrie,
        it.strip = t ∧ it.lab = idx ∧
        (it.labels).Perm (idx :: List.range' m (t.size - 1)) ∧
        it.Inc ∧ it.RightFirst ∧
        Agrees (flattenTree t idx nodes) it := by
  induction t using Trie.indOn with
  | h lc rc ihl ihr =>
    intro idx m nodes hlen hidx hz1 hz2
    have hm : nodes.length / 2 = m := by omega
    cases lc with
    | none =>
      cases rc with
      | none =>
        refine ⟨.tip idx, rfl, rfl, ?_, trivial, trivial, ?_⟩
        · have hsz : (Trie.node none none).size - 1 = 0 := by
            rw [Trie.size_node]; simp [osize]
          rw [hsz]
          simp [ITrie.labels, List.range']
        · rw [flattenTree]
          exact ⟨hz1, hz2⟩
      | some rt =>
        rw [flattenTree, hm]
        set nodes1 := (nodes ++ [0, 0]).set (2 * idx + 1) m with hn1
        have hlen1 : nodes1.length = 2 * (m + 1) := by simp [hn1, hlen]; omega
        have hzr1 : nodes1.getD (2 * m) 0 = 0 := by
          rw [hn1, getD_set_ne _ _ _ _ (by omega), getD_pad,
            List.getD_eq_default _ _ (by omega)]
        have hzr2 : nodes1.getD (2 * m + 1) 0 = 0 := by
          rw [hn1, getD_set_ne _ _ _ _ (by omega), getD_pad,
            List.getD_eq_default _ _ (by omega)]
        obtain ⟨itR, hstrip, hlab, hperm, hinc, hrf, hagree⟩ :=
          ihr rt rfl m (m + 1) nodes1 hlen1 (by omega) hzr1 hzr2
        obtain ⟨k, hk⟩ : ∃ k, rt.size = k + 1 :=
          ⟨rt.size - 1, by have := Trie.size_pos rt; omega⟩
        refine ⟨.ronly idx itR, ?_, rfl, ?_, ?_, ?_, ?_⟩
        · simp [ITrie.strip, hstrip]
        · have hsz : (Trie.node none (some rt)).size - 1 = k + 1 := by
            rw [Trie.size_node]; simp [osize, hk]
          rw [hsz, List.range'_succ]
          simp only [ITrie.labels]
          refine List.Perm.cons idx ?_
          simpa [hk] using hperm
        · exact ⟨by rw [hlab]; omega, hinc⟩
        · exact hrf
        · refine ⟨?_, ?_, hagree⟩
          · rw [flattenTree_stable rt m (m + 1) nodes1 (2 * idx) hlen1
              (by omega) (by omega) (by omega) (by omega)]
            rw [hn1, getD_set_ne _ _ _ _ (by omega), getD_pad]
            exact hz1
          · rw [flattenTree_stable rt m (m + 1) nodes1 (2 * idx + 1) hlen1
              (by omega) (by omega) (by omega) (by omega)]
            rw [hn1, getD_set_eq _ _ _ (by simp [hlen]; omega), hlab]
    | some lt =>
      cases rc with
      | none =>
        rw [flattenTree, hm]
        set nodes1 := (nodes ++ [0, 0]).set (2 * idx) m with hn1
        have hlen1 : nodes1.length = 2 * (m + 1) := by simp [hn1, hlen]; omega
        have hzl1 : nodes1.getD (2 * m) 0 = 0 := by
          rw [hn1, getD_set_ne _ _ _ _ (by omega), getD_pad,
            List.getD_eq_default _ _ (by omega)]
        have hzl2 : nodes1.getD (2 * m + 1) 0 = 0 := by
          rw [hn1, getD_set_ne _ _ _ _ (by omega), getD_pad,
            List.getD_eq_default _ _ (by omega)]
        obtain ⟨itL, hstrip, hlab, hperm, hinc, hrf, hagree⟩ :=
          ihl lt rfl m (m + 1) nodes1 hlen1 (by omega) hzl1 hzl2
        obtain ⟨k, hk⟩ : ∃ k, lt.size = k + 1 :=
          ⟨lt.size - 1, by have := Trie.size_pos lt; omega⟩
        refine ⟨.lonly idx itL, ?_, rfl, ?_, ?_, ?_, ?_⟩
        · simp [ITrie.strip, hstrip]
        · have hsz : (Trie.node (some lt) none).size - 1 = k + 1 := by
            rw [Trie.size_node]; simp [osize, hk]
          rw [hsz, List.range'_succ]
          simp only [ITrie.labels]
          refine List.Perm.cons idx ?_
          simpa [hk] using hperm
        · exact ⟨by rw [hlab]; omega, hinc⟩
        · exact hrf
        · refine ⟨?_, ?_, hagree⟩
          · rw [flattenTree_stable lt m (m + 1) nodes1 (2 * idx) hlen1
              (by omega) (by omega) (by omega) (by omega)]
            rw [hn1, getD_set_eq _ _ _ (by simp [hlen]; omega), hlab]
          · rw [flattenTree_stable lt m (m + 1) nodes1 (2 * idx + 1) hlen1
              (by omega) (by omega) (by omega) (by omega)]
            rw [hn1, getD_set_ne _ _ _ _ (by omega), getD_pad]
            exact hz2
      | some rt =>
        rw [flattenTree, hm, show (nodes.length + 2) / 2 = m + 1 from by omega]
        set nodes2 := (((nodes ++ [0, 0]).set (2 * idx + 1) m) ++ [0, 0]).set
          (2 * idx) (m + 1) with hn2
        have hlen2 : nodes2.length = 2 * (m + 2) := by simp [hn2, hlen]; omega
        have hzl1 : nodes2.getD (2 * (m + 1)) 0 = 0 := by
          rw [hn2, getD_set_ne _ _ _ _ (by omega), getD_pad,
            getD_set_ne _ _ _ _ (by omega), getD_pad,
            List.getD_eq_default _ _ (by omega)]
        have hzl2 : nodes2.getD (2 * (m + 1) + 1) 0 = 0 := by
          rw [hn2, getD_set_ne _ _ _ _ (by omega), getD_pad,
            getD_set_ne _ _ _ _ (by omega), getD_pad,
            List.getD_eq_default _ _ (by omega)]
        obtain ⟨itL, hstripL, hlabL, hpermL, hincL, hrfL, hagreeL⟩ :=
          ihl lt rfl (m + 1) (m + 2) nodes2 hlen2 (by omega) hzl1 hzl2
        set NL := flattenTree lt (m + 1) nodes2 with hNL
        have hszL := Trie.size_pos lt
        have hszR := Trie.size_pos rt
        have hlenL : NL.length + 2 = nodes2.length + 2 * lt.size :=
          flattenTree_length lt (m + 1) nodes2
        have hlenL' : NL.length = 2 * (m + 1 + lt.size) := by omega
        have hzr1 : NL.getD (2 * m) 0 = 0 := by
          rw [hNL, flattenTree_stable lt (m + 1) (m + 2) nodes2 (2 * m) hlen2
            (by omega) (by omega) (by omega) (by omega)]
          rw [hn2, getD_set_ne _ _ _ _ (by omega), getD_pad,
            getD_set_ne _ _ _ _ (by omega), getD_pad,
            List.getD_eq_default _ _ (by omega)]
        have hzr2 : NL.getD (2 * m + 1) 0 = 0 := by
          rw [hNL, flattenTree_stable lt (m + 1) (m + 2) nodes2 (2 * m + 1) hlen2
            (by omega) (by omega) (by omega) (by omega)]
          rw [hn2, getD_set_ne _ _ _ _ (by omega), getD_pad,
            getD_set_ne _ _ _ _ (by omega), getD_pad,
            List.getD_eq_default _ _ (by omega)]
        obtain ⟨itR, hstripR, hlabR, hpermR, hincR, hrfR, hagreeR⟩ :=
          ihr rt rfl m (m + 1 + lt.size) NL hlenL' (by omega) hzr1 hzr2
        obtain ⟨kL, hkL⟩ : ∃ k, lt.size = k + 1 := ⟨lt.size - 1, by omega⟩
        obtain ⟨kR, hkR⟩ : ∃ k, rt.size = k + 1 := ⟨rt.size - 1, by omega⟩
        have hpermL' : itL.labels.Perm ((m + 1) :: List.range' (m + 2) kL) := by
          simpa [hkL] using hpermL
        have hpermR' : itR.labels.Perm (m :: List.range' (m + 2 + kL) kR) := by
          have : m + 1 + lt.size = m + 2 + kL := by omega
          simpa [hkR, this] using hpermR
        have hboundL : ∀ j ∈ itL.labels, j < m + 1 + lt.size := by
          intro j hj
          rcases List.mem_cons.mp (hpermL'.mem_iff.mp hj) with h | h
          · omega
          · have := List.mem_range'_1.mp h
            omega
        have hnotinL : m ∉ itL.labels := by
          intro hmem
          rcases List.mem_cons.mp (hpermL'.mem_iff.mp hmem) with h | h
          · omega
          · have := List.mem_range'_1.mp h
            omega
        have hagreeL' : Agrees (flattenTree rt m NL) itL :=
          Agrees_flattenTree rt itL m (m + 1 + lt.size) NL hlenL' (by omega)
            hboundL hnotinL hagreeL
        refine ⟨.both idx itL itR, ?_, rfl, ?_, ?_, ?_, ?_⟩
        · simp [ITrie.strip, hstripL, hstripR]
        · have hsz : (Trie.node (some lt) (some rt)).size - 1 = kL + kR + 2 := by
            rw [Trie.size_node]; simp [osize, hkL, hkR]; omega
          rw [hsz]
          simp only [ITrie.labels]
          refine List.Perm.cons idx ?_
          have hsplit : List.range' (m + 2) kL ++ List.range' (m + 2 + kL) kR =
              List.range' (m + 2) (kL + kR) := by
            have := List.range'_append (m + 2) kL kR 1
            simpa [Nat.add_comm kR kL] using this
          have step1 : (((m + 1) :: List.range' (m + 2) kL) ++
              (m :: List.range' (m + 2 + kL) kR)).Perm
                (List.range' m (kL + kR + 2)) := by
            refine List.Perm.trans (List.Perm.cons _ List.perm_middle) ?_
            refine List.Perm.trans (List.Perm.swap _ _ _) ?_
            rw [hsplit, show kL + kR + 2 = (kL + kR + 1) + 1 from rfl,
              List.range'_succ, show kL + kR + 1 = (kL + kR) + 1 from rfl,
              List.range'_succ]
          exact (hpermL'.append hpermR').trans step1
        · exact ⟨by rw [hlabL]; omega, by rw [hlabR]; omega, hincL, hincR⟩
        · exact ⟨by rw [hlabL, hlabR]; omega, hrfL, hrfR⟩
        · refine ⟨?_, ?_, hagreeL', hagreeR⟩
          · rw [flattenTree_stable rt m (m + 1 + lt.size) NL (2 * idx) hlenL'
              (by omega) (by omega) (by omega) (by omega)]
            rw [hNL, flattenTree_stable lt (m + 1) (m + 2) nodes2 (2 * idx) hlen2
              (by omega) (by omega) (by omega) (by omega)]
            rw [hn2, getD_set_eq _ _ _ (by simp [hlen]; omega), hlabL]
          · rw [flattenTree_stable rt m (m + 1 + lt.size) NL (2 * idx + 1) hlenL'
              (by omega) (by omega) (by omega) (by omega)]
            rw [hNL, flattenTree_stable lt (m + 1) (m + 2) nodes2 (2 * idx + 1) hlen2
              (by omega) (by omega) (by omega) (by omega)]
            rw [hn2, getD_set_ne _ _ _ _ (by omega), getD_pad,
              getD_set_eq _ _ _ (by simp [hlen]; omega), hlabR]

/-- Specification of `trie_to_nodes`: there is an indexed tree over `t`
rooted at slot 0 whose labels are exactly `0, …, t.size - 1`, with
parent-before-child labels, right-before-left allocation, and all child
links recorded in the output. -/
theorem trie_to_nodes_spec (t : Trie) :
    ∃ it : ITrie,
      it.strip = t ∧ it.lab = 0 ∧
      (it.labels).Perm (List.range t.size) ∧
      it.Inc ∧ it.RightFirst ∧
      Agrees (trie_to_nodes t) it := by
  obtain ⟨it, h1, h2, h3, h4, h5, h6⟩ :=
    flattenTree_spec t 0 1 [0, 0] (by simp) (by omega) (by simp) (by simp)
  refine ⟨it, h1, h2, ?_, h4, h5, ?_⟩
  · obtain ⟨k, hk⟩ : ∃ k, t.size = k + 1 := ⟨t.size - 1, by have := Trie.size_pos t; omega⟩
    rw [hk, List.range_eq_range', List.range'_succ]
    simpa [hk] using h3
  · rw [trie_to_nodes_eq]
    exact h6

/-! ### Association-list cache lemmas -/

/-- The keys of a cache. -/
def keys (c : List (Nat × Trie)) : List Nat := c.map Prod.fst

theorem eraseKey_sublist (a : Nat) (c : List (Nat × Trie)) :
    (eraseKey a c).Sublist c := by
  induction c with
  | nil => simp [eraseKey]
  | cons p rest ih =>
    obtain ⟨k, t⟩ := p
    rw [eraseKey]
    by_cases h : k = a
    · rw [if_pos h]
      exact List.sublist_cons_self _ _
    · rw [if_neg h]
      exact ih.cons₂ _

theorem keys_eraseKey_sublist (a : Nat) (c : List (Nat × Trie)) :
    (keys (eraseKey a c)).Sublist (keys c) :=
  (eraseKey_sublist a c).map Prod.fst

theorem keys_cons (p : Nat × Trie) (c : List (Nat × Trie)) :
    keys (p :: c) = p.1 :: keys c := rfl

theorem mem_keys_of_mem {a : Nat} {v : Trie} {c : List (Nat × Trie)}
    (h : (a, v) ∈ c) : a ∈ keys c :=
  List.mem_map.mpr ⟨(a, v), h, rfl⟩

theorem mem_eraseKey {a b : Nat} {v : Trie} {c : List (Nat × Trie)} (hne : a ≠ b) :
    (a, v) ∈ eraseKey b c ↔ (a, v) ∈ c := by
  induction c with
  | nil => simp [eraseKey]
  | cons p rest ih =>
    obtain ⟨k, t⟩ := p
    by_cases h : k = b
    · rw [eraseKey, if_pos h]
      constructor
      · intro hm
        exact List.mem_cons_of_mem _ hm
      · intro hm
        rcases List.mem_cons.mp hm with he | hm2
        · exfalso
          apply hne
          rw [Prod.mk.injEq] at he
          rw [he.1, h]
        · exact hm2
    · rw [eraseKey, if_neg h, List.mem_cons, List.mem_cons, ih]

theorem eraseKey_of_not_mem {a : Nat} {c : List (Nat × Trie)} (h : a ∉ keys c) :
    eraseKey a c = c := by
  induction c with
  | nil => rfl
  | cons p rest ih =>
    obtain ⟨k, t⟩ := p
    rw [keys_cons] at h
    have hka : ¬ k = a := fun he => h (by rw [he]; exact List.mem_cons_self _ _)
    rw [eraseKey, if_neg hka, ih (fun hm => h (List.mem_cons_of_mem _ hm))]

theorem cremove_of_mem {a : Nat} {v : Trie} {c : List (Nat × Trie)}
    (hnd : (keys c).Nodup) (hmem : (a, v) ∈ c) :
    cremove a c = some (v, eraseKey a c) := by
  induction c with
  | nil => cases hmem
  | cons p rest ih =>
    obtain ⟨k, t⟩ := p
    rw [keys_cons] at hnd
    obtain ⟨hknotin, hndrest⟩ := List.nodup_cons.mp hnd
    by_cases h : k = a
    · rw [cremove, eraseKey, if_pos h, if_pos h]
      rcases List.mem_cons.mp hmem with he | hm
      · cases he
        rfl
      · exfalso
        exact hknotin (h ▸ mem_keys_of_mem hm)
    · rw [cremove, eraseKey, if_neg h, if_neg h]
      have hm : (a, v) ∈ rest := by
        rcases List.mem_cons.mp hmem with he | hm
        · rw [Prod.mk.injEq] at he
          exact absurd he.1.symm h
        · exact hm
      rw [ih hndrest hm]

theorem filterKey_of_not_mem {a : Nat} {c : List (Nat × Trie)} (h : a ∉ keys c) :
    c.filter (fun p => !(p.1 == a)) = c := by
  induction c with
  | nil => rfl
  | cons p rest ih =>
    obtain ⟨k, t⟩ := p
    rw [keys_cons] at h
    have hka : ¬ k = a := fun he => h (by rw [he]; exact List.mem_cons_self _ _)
    rw [List.filter_cons]
    have hb : (!((k, t).1 == a)) = true := by simp [hka]
    rw [if_pos hb, ih (fun hm => h (List.mem_cons_of_mem _ hm))]

theorem eraseKey_eq_filter {a : Nat} {c : List (Nat × Trie)} (hnd : (keys c).Nodup) :
    eraseKey a c = c.filter (fun p => !(p.1 == a)) := by
  induction c with
  | nil => rfl
  | cons p rest ih =>
    obtain ⟨k, t⟩ := p
    rw [keys_cons] at hnd
    obtain ⟨hknotin, hndrest⟩ := List.nodup_cons.mp hnd
    rw [eraseKey, List.filter_cons]
    by_cases h : k = a
    · rw [if_pos h]
      have hb : (!((k, t).1 == a)) = false := by simp [h]
      rw [hb]
      simp only [Bool.false_eq_true, if_false]
      rw [filterKey_of_not_mem (h ▸ hknotin)]
    · rw [if_neg h]
      have hb : (!((k, t).1 == a)) = true := by simp [h]
      rw [if_pos hb, ih hndrest]

theorem keys_perm {c d : List (Nat × Trie)} (h : c.Perm d) : (keys c).Perm (keys d) :=
  h.map Prod.fst

theorem perm_eraseKey {c d : List (Nat × Trie)} (h : c.Perm d)
    (hnd : (keys c).Nodup) (a : Nat) : (eraseKey a c).Perm (eraseKey a d) := by
  have hnd' : (keys d).Nodup := (keys_perm h).nodup hnd
  rw [eraseKey_eq_filter hnd, eraseKey_eq_filter hnd']
  exact h.filter _

/-! ### Subtrees -/

/-- `Sub it s`: `s` is a subtree of `it`. -/
inductive Sub : ITrie → ITrie → Prop where
  | refl (it : ITrie) : Sub it it
  | lonly {c s : ITrie} (i : Nat) : Sub c s → Sub (.lonly i c) s
  | ronly {c s : ITrie} (i : Nat) : Sub c s → Sub (.ronly i c) s
  | bothL {cl cr s : ITrie} (i : Nat) : Sub cl s → Sub (.both i cl cr) s
  | bothR {cl cr s : ITrie} (i : Nat) : Sub cr s → Sub (.both i cl cr) s

/-- The child subtrees of the root node. -/
def ITrie.childNodes : ITrie → List ITrie
  | .tip _ => []
  | .lonly _ c => [c]
  | .ronly _ c => [c]
  | .both _ cl cr => [cl, cr]

/-- The labels of the root's children. -/
def ITrie.childKeys : ITrie → List Nat
  | .tip _ => []
  | .lonly _ c => [c.lab]
  | .ronly _ c => [c.lab]
  | .both _ cl cr => [cl.lab, cr.lab]

theorem ITrie.childKeys_subset (s : ITrie) : ∀ a ∈ s.childKeys, a ∈ s.labels := by
  cases s with
  | tip i => simp [ITrie.childKeys]
  | lonly i c =>
    intro a ha
    simp [ITrie.childKeys] at ha
    simp [ITrie.labels, ha]
    exact Or.inr c.lab_mem_labels
  | ronly i c =>
    intro a ha
    simp [ITrie.childKeys] at ha
    simp [ITrie.labels, ha]
    exact Or.inr c.lab_mem_labels
  | both i cl cr =>
    intro a ha
    simp [ITrie.childKeys] at ha
    rcases ha with h | h <;> simp [ITrie.labels, h]
    · exact Or.inr (Or.inl cl.lab_mem_labels)
    · exact Or.inr (Or.inr cr.lab_mem_labels)

theorem Sub.labels_subset {it s : ITrie} (h : Sub it s) :
    ∀ j ∈ s.labels, j ∈ it.labels := by
  induction h with
  | refl it => exact fun j hj => hj
  | lonly i hsub ih =>
    intro j hj
    simp [ITrie.labels]
    exact Or.inr (ih j hj)
  | ronly i hsub ih =>
    intro j hj
    simp [ITrie.labels]
    exact Or.inr (ih j hj)
  | bothL i hsub ih =>
    intro j hj
    simp [ITrie.labels]
    exact Or.inr (Or.inl (ih j hj))
  | bothR i hsub ih =>
    intro j hj
    simp [ITrie.labels]
    exact Or.inr (Or.inr (ih j hj))

theorem Sub.inc {it s : ITrie} (h : Sub it s) : it.Inc → s.Inc := by
  induction h with
  | refl it => exact fun h => h
  | lonly i hsub ih => exact fun hinc => ih hinc.2
  | ronly i hsub ih => exact fun hinc => ih hinc.2
  | bothL i hsub ih => exact fun hinc => ih hinc.2.2.1
  | bothR i hsub ih => exact fun hinc => ih hinc.2.2.2

theorem Sub.agrees {N : List Nat} {it s : ITrie} (h : Sub it s) :
    Agrees N it → Agrees N s := by
  induction h with
  | refl it => exact fun h => h
  | lonly i hsub ih => exact fun ha => ih ha.2.2
  | ronly i hsub ih => exact fun ha => ih ha.2.2
  | bothL i hsub ih => exact fun ha => ih ha.2.2.1
  | bothR i hsub ih => exact fun ha => ih ha.2.2.2

theorem Sub.lab_le {it s : ITrie} (h : Sub it s) : it.Inc → it.lab ≤ s.lab := by
  induction h with
  | refl it => exact fun _ => le_refl _
  | lonly i hsub ih =>
    intro hinc
    have h1 : i < _ := hinc.1
    have h2 := ih hinc.2
    exact le_trans (Nat.le_of_lt h1) h2
  | ronly i hsub ih =>
    intro hinc
    have h1 : i < _ := hinc.1
    have h2 := ih hinc.2
    exact le_trans (Nat.le_of_lt h1) h2
  | bothL i hsub ih =>
    intro hinc
    have h1 : i < _ := hinc.1
    have h2 := ih hinc.2.2.1
    exact le_trans (Nat.le_of_lt h1) h2
  | bothR i hsub ih =>
    intro hinc
    have h1 : i < _ := hinc.2.1
    have h2 := ih hinc.2.2.2
    exact le_trans (Nat.le_of_lt h1) h2

theorem Sub.labels_nodup {it s : ITrie} (h : Sub it s) :
    it.labels.Nodup → s.labels.Nodup := by
  induction h with
  | refl it => exact fun h => h
  | lonly i hsub ih =>
    intro hnd
    exact ih (List.nodup_cons.mp hnd).2
  | ronly i hsub ih =>
    intro hnd
    exact ih (List.nodup_cons.mp hnd).2
  | bothL i hsub ih =>
    intro hnd
    have := (List.nodup_cons.mp hnd).2
    exact ih (List.nodup_append.mp this).1
  | bothR i hsub ih =>
    intro hnd
    have := (List.nodup_cons.mp hnd).2
    exact ih (List.nodup_append.mp this).2.1

theorem Sub.exists_of_mem {it : ITrie} {k : Nat} :
    k ∈ it.labels → ∃ s, Sub it s ∧ s.lab = k := by
  induction it with
  | tip i =>
    intro h
    simp [ITrie.labels] at h
    exact ⟨.tip i, Sub.refl _, by simp [ITrie.lab, h]⟩
  | lonly i c ih =>
    intro h
    simp [ITrie.labels] at h
    rcases h with h | h
    · exact ⟨.lonly i c, Sub.refl _, by simp [ITrie.lab, h]⟩
    · obtain ⟨s, hs, hl⟩ := ih h
      exact ⟨s, Sub.lonly i hs, hl⟩
  | ronly i c ih =>
    intro h
    simp [ITrie.labels] at h
    rcases h with h | h
    · exact ⟨.ronly i c, Sub.refl _, by simp [ITrie.lab, h]⟩
    · obtain ⟨s, hs, hl⟩ := ih h
      exact ⟨s, Sub.ronly i hs, hl⟩
  | both i cl cr ihl ihr =>
    intro h
    simp [ITrie.labels] at h
    rcases h with h | h | h
    · exact ⟨.both i cl cr, Sub.refl _, by simp [ITrie.lab, h]⟩
    · obtain ⟨s, hs, hl⟩ := ihl h
      exact ⟨s, Sub.bothL i hs, hl⟩
    · obtain ⟨s, hs, hl⟩ := ihr h
      exact ⟨s, Sub.bothR i hs, hl⟩

/-! ### The unflatten frontier

`frontier k it` is the cache contents after the unflatten countdown has
processed exactly the indices `≥ k`: the maximal subtrees whose root label
is `≥ k` have been built but not yet attached to their parents. -/

def frontier (k : Nat) : ITrie → List (Nat × Trie)
  | .tip i => if k ≤ i then [(i, Trie.node none none)] else []
  | .lonly i c =>
    if k ≤ i then [(i, Trie.node (some c.strip) none)] else frontier k c
  | .ronly i c =>
    if k ≤ i then [(i, Trie.node none (some c.strip))] else frontier k c
  | .both i cl cr =>
    if k ≤ i then [(i, Trie.node (some cl.strip) (some cr.strip))]
    else frontier k cl ++ frontier k cr

theorem frontier_top {k : Nat} {it : ITrie} (h : k ≤ it.lab) :
    frontier k it = [(it.lab, it.strip)] := by
  cases it with
  | tip i => rw [frontier, if_pos (show k ≤ i from h)]; rfl
  | lonly i c => rw [frontier, if_pos (show k ≤ i from h)]; rfl
  | ronly i c => rw [frontier, if_pos (show k ≤ i from h)]; rfl
  | both i cl cr => rw [frontier, if_pos (show k ≤ i from h)]; rfl

theorem keys_frontier_sublist (k : Nat) (it : ITrie) :
    (keys (frontier k it)).Sublist it.labels := by
  induction it with
  | tip i =>
    rw [frontier]
    by_cases h : k ≤ i
    · rw [if_pos h]; simp [keys, ITrie.labels]
    · rw [if_neg h]; simp [keys, ITrie.labels]
  | lonly i c ih =>
    rw [frontier]
    by_cases h : k ≤ i
    · rw [if_pos h]
      simp only [keys, List.map, ITrie.labels]
      exact (List.nil_sublist _).cons₂ _
    · rw [if_neg h]
      exact ih.cons _
  | ronly i c ih =>
    rw [frontier]
    by_cases h : k ≤ i
    · rw [if_pos h]
      simp only [keys, List.map, ITrie.labels]
      exact (List.nil_sublist _).cons₂ _
    · rw [if_neg h]
      exact ih.cons _
  | both i cl cr ihl ihr =>
    rw [frontier]
    by_cases h : k ≤ i
    · rw [if_pos h]
      simp only [keys, List.map, ITrie.labels]
      exact (List.nil_sublist _).cons₂ _
    · rw [if_neg h]
      show (keys (frontier k cl ++ frontier k cr)).Sublist (ITrie.both i cl cr).labels
      have : keys (frontier k cl ++ frontier k cr) =
          keys (frontier k cl) ++ keys (frontier k cr) := by
        simp [keys]
      rw [this]
      exact (ihl.append ihr).cons _

theorem keys_frontier_ge (k : Nat) (it : ITrie) :
    ∀ j ∈ keys (frontier k it), k ≤ j := by
  induction it with
  | tip i =>
    rw [frontier]
    by_cases h : k ≤ i
    · rw [if_pos h]
      intro j hj
      simp [keys] at hj
      omega
    · rw [if_neg h]
      intro j hj
      simp [keys] at hj
  | lonly i c ih =>
    rw [frontier]
    by_cases h : k ≤ i
    · rw [if_pos h]
      intro j hj
      simp [keys] at hj
      omega
    · rw [if_neg h]
      exact ih
  | ronly i c ih =>
    rw [frontier]
    by_cases h : k ≤ i
    · rw [if_pos h]
      intro j hj
      simp [keys] at hj
      omega
    · rw [if_neg h]
      exact ih
  | both i cl cr ihl ihr =>
    rw [frontier]
    by_cases h : k ≤ i
    · rw [if_pos h]
      intro j hj
      simp [keys] at hj
      omega
    · rw [if_neg h]
      intro j hj
      have : keys (frontier k cl ++ frontier k cr) =
          keys (frontier k cl) ++ keys (frontier k cr) := by simp [keys]
      rw [this] at hj
      rcases List.mem_append.mp hj with hj | hj
      · exact ihl j hj
      · exact ihr j hj

theorem frontier_empty {k : Nat} {it : ITrie} (h : ∀ j ∈ it.labels, j < k) :
    frontier k it = [] := by
  induction it with
  | tip i =>
    have : i < k := h i (by simp [ITrie.labels])
    rw [frontier, if_neg (by omega)]
  | lonly i c ih =>
    have : i < k := h i (by simp [ITrie.labels])
    rw [frontier, if_neg (by omega)]
    exact ih fun j hj => h j (by simp [ITrie.labels]; exact Or.inr hj)
  | ronly i c ih =>
    have : i < k := h i (by simp [ITrie.labels])
    rw [frontier, if_neg (by omega)]
    exact ih fun j hj => h j (by simp [ITrie.labels]; exact Or.inr hj)
  | both i cl cr ihl ihr =>
    have : i < k := h i (by simp [ITrie.labels])
    rw [frontier, if_neg (by omega)]
    rw [ihl fun j hj => h j (by simp [ITrie.labels]; exact Or.inr (Or.inl hj)),
      ihr fun j hj => h j (by simp [ITrie.labels]; exact Or.inr (Or.inr hj))]
    rfl

theorem frontier_congr {k : Nat} {it : ITrie} (h : k ∉ it.labels) :
    frontier k it = frontier (k + 1) it := by
  induction it with
  | tip i =>
    have hne : ¬ i = k := fun he => h (by simp [ITrie.labels, he])
    rw [frontier, frontier]
    by_cases hle : k ≤ i
    · rw [if_pos hle, if_pos (by omega)]
    · rw [if_neg hle, if_neg (by omega)]
  | lonly i c ih =>
    have hne : ¬ i = k := fun he => h (by simp [ITrie.labels, he])
    have hrest : k ∉ c.labels := fun hm => h (by simp [ITrie.labels]; exact Or.inr hm)
    rw [frontier, frontier]
    by_cases hle : k ≤ i
    · rw [if_pos hle, if_pos (by omega)]
    · rw [if_neg hle, if_neg (by omega), ih hrest]
  | ronly i c ih =>
    have hne : ¬ i = k := fun he => h (by simp [ITrie.labels, he])
    have hrest : k ∉ c.labels := fun hm => h (by simp [ITrie.labels]; exact Or.inr hm)
    rw [frontier, frontier]
    by_cases hle : k ≤ i
    · rw [if_pos hle, if_pos (by omega)]
    · rw [if_neg hle, if_neg (by omega), ih hrest]
  | both i cl cr ihl ihr =>
    have hne : ¬ i = k := fun he => h (by simp [ITrie.labels, he])
    have hl : k ∉ cl.labels := fun hm => h (by simp [ITrie.labels]; exact Or.inr (Or.inl hm))
    have hr : k ∉ cr.labels := fun hm => h (by simp [ITrie.labels]; exact Or.inr (Or.inr hm))
    rw [frontier, frontier]
    by_cases hle : k ≤ i
    · rw [if_pos hle, if_pos (by omega)]
    · rw [if_neg hle, if_neg (by omega), ihl hl, ihr hr]

/-- Erase several keys in order (the unflattener removes the left child's
key first, then the right child's). -/
def eraseKeys (ks : List Nat) (c : List (Nat × Trie)) : List (Nat × Trie) :=
  ks.foldl (fun acc a => eraseKey a acc) c

theorem eraseKey_append_of_not_mem_right {a : Nat} {A B : List (Nat × Trie)}
    (h : a ∉ keys B) : eraseKey a (A ++ B) = eraseKey a A ++ B := by
  induction A with
  | nil => simpa [eraseKey] using eraseKey_of_not_mem h
  | cons p A' ih =>
    obtain ⟨k, t⟩ := p
    rw [List.cons_append, eraseKey, eraseKey]
    by_cases hk : k = a
    · rw [if_pos hk, if_pos hk]
    · rw [if_neg hk, if_neg hk, ih, List.cons_append]

theorem eraseKey_append_of_not_mem_left {a : Nat} {A B : List (Nat × Trie)}
    (h : a ∉ keys A) : eraseKey a (A ++ B) = A ++ eraseKey a B := by
  induction A with
  | nil => rfl
  | cons p A' ih =>
    obtain ⟨k, t⟩ := p
    rw [keys_cons] at h
    have hk : ¬ k = a := fun he => h (by rw [he]; exact List.mem_cons_self _ _)
    rw [List.cons_append, eraseKey, if_neg hk,
      ih (fun hm => h (List.mem_cons_of_mem _ hm)), List.cons_append]

theorem eraseKeys_append_of_not_mem_right {ks : List Nat} :
    ∀ {A B : List (Nat × Trie)}, (∀ a ∈ ks, a ∉ keys B) →
      eraseKeys ks (A ++ B) = eraseKeys ks A ++ B := by
  induction ks with
  | nil => intro A B _; rfl
  | cons a ks' ih =>
    intro A B h
    show eraseKeys ks' (eraseKey a (A ++ B)) = eraseKeys ks' (eraseKey a A) ++ B
    rw [eraseKey_append_of_not_mem_right (h a (by simp))]
    exact ih fun b hb => h b (by simp [hb])

theorem eraseKeys_append_of_not_mem_left {ks : List Nat} :
    ∀ {A B : List (Nat × Trie)}, (∀ a ∈ ks, a ∉ keys A) →
      eraseKeys ks (A ++ B) = A ++ eraseKeys ks B := by
  induction ks with
  | nil => intro A B _; rfl
  | cons a ks' ih =>
    intro A B h
    show eraseKeys ks' (eraseKey a (A ++ B)) = A ++ eraseKeys ks' (eraseKey a B)
    rw [eraseKey_append_of_not_mem_left (h a (by simp))]
    exact ih fun b hb => h b (by simp [hb])

/-- Children of any subtree are present in the frontier just below the
subtree's own label. -/
theorem childNodes_mem_frontier {it s : ITrie} (hsub : Sub it s) :
    ∀ c ∈ s.childNodes, it.Inc → (c.lab, c.strip) ∈ frontier (s.lab + 1) it := by
  induction hsub with
  | refl it =>
    intro c hc hinc
    cases it with
    | tip i => cases hc
    | lonly i c0 =>
      simp [ITrie.childNodes] at hc
      subst hc
      rw [show (ITrie.lonly i c).lab = i from rfl, frontier, if_neg (by omega),
        frontier_top (show i + 1 ≤ c.lab from hinc.1)]
      simp
    | ronly i c0 =>
      simp [ITrie.childNodes] at hc
      subst hc
      rw [show (ITrie.ronly i c).lab = i from rfl, frontier, if_neg (by omega),
        frontier_top (show i + 1 ≤ c.lab from hinc.1)]
      simp
    | both i cl cr =>
      simp [ITrie.childNodes] at hc
      rw [show (ITrie.both i cl cr).lab = i from rfl, frontier, if_neg (by omega),
        frontier_top (show i + 1 ≤ cl.lab from hinc.1),
        frontier_top (show i + 1 ≤ cr.lab from hinc.2.1)]
      rcases hc with hc | hc <;> subst hc <;> simp
  | lonly i hs ih =>
    intro c hc hinc
    have hle := hs.lab_le hinc.2
    have : i < _ := hinc.1
    rw [frontier, if_neg (by omega)]
    exact ih c hc hinc.2
  | ronly i hs ih =>
    intro c hc hinc
    have hle := hs.lab_le hinc.2
    have : i < _ := hinc.1
    rw [frontier, if_neg (by omega)]
    exact ih c hc hinc.2
  | bothL i hs ih =>
    intro c hc hinc
    have hle := hs.lab_le hinc.2.2.1
    have : i < _ := hinc.1
    rw [frontier, if_neg (by omega)]
    exact List.mem_append_left _ (ih c hc hinc.2.2.1)
  | bothR i hs ih =>
    intro c hc hinc
    have hle := hs.lab_le hinc.2.2.2
    have : i < _ := hinc.2.1
    rw [frontier, if_neg (by omega)]
    exact List.mem_append_right _ (ih c hc hinc.2.2.2)

/-- One countdown step, on the frontier: processing the node labelled
`s.lab` removes its children (left key first) and adds the node itself. -/
theorem frontier_step {it s : ITrie} (hsub : Sub it s) :
    it.Inc → it.labels.Nodup →
      (frontier s.lab it).Perm
        ((s.lab, s.strip) :: eraseKeys s.childKeys (frontier (s.lab + 1) it)) := by
  induction hsub with
  | refl it =>
    intro hinc _
    rw [frontier_top (le_refl _)]
    cases it with
    | tip i =>
      rw [show (ITrie.tip i).lab = i from rfl, frontier, if_neg (by omega)]
      exact List.Perm.refl _
    | lonly i c0 =>
      rw [show (ITrie.lonly i c0).lab = i from rfl, frontier, if_neg (by omega),
        frontier_top (show i + 1 ≤ c0.lab from hinc.1)]
      show [((ITrie.lonly i c0).lab, (ITrie.lonly i c0).strip)].Perm
        ((i, (ITrie.lonly i c0).strip) :: eraseKey c0.lab [(c0.lab, c0.strip)])
      rw [eraseKey, if_pos rfl]
      exact List.Perm.refl _
    | ronly i c0 =>
      rw [show (ITrie.ronly i c0).lab = i from rfl, frontier, if_neg (by omega),
        frontier_top (show i + 1 ≤ c0.lab from hinc.1)]
      show [((ITrie.ronly i c0).lab, (ITrie.ronly i c0).strip)].Perm
        ((i, (ITrie.ronly i c0).strip) :: eraseKey c0.lab [(c0.lab, c0.strip)])
      rw [eraseKey, if_pos rfl]
      exact List.Perm.refl _
    | both i cl cr =>
      rw [show (ITrie.both i cl cr).lab = i from rfl, frontier, if_neg (by omega),
        frontier_top (show i + 1 ≤ cl.lab from hinc.1),
        frontier_top (show i + 1 ≤ cr.lab from hinc.2.1)]
      show [((ITrie.both i cl cr).lab, (ITrie.both i cl cr).strip)].Perm
        ((i, (ITrie.both i cl cr).strip) ::
          eraseKey cr.lab (eraseKey cl.lab ([(cl.lab, cl.strip)] ++ [(cr.lab, cr.strip)])))
      rw [List.singleton_append, eraseKey, if_pos rfl, eraseKey, if_pos rfl]
      exact List.Perm.refl _
  | @lonly c0 s i hs ih =>
    intro hinc hnd
    have hle := hs.lab_le hinc.2
    have hi : i < _ := hinc.1
    rw [frontier, if_neg (by omega), frontier, if_neg (by omega)]
    exact ih hinc.2 (List.nodup_cons.mp hnd).2
  | @ronly c0 s i hs ih =>
    intro hinc hnd
    have hle := hs.lab_le hinc.2
    have hi : i < _ := hinc.1
    rw [frontier, if_neg (by omega), frontier, if_neg (by omega)]
    exact ih hinc.2 (List.nodup_cons.mp hnd).2
  | @bothL cl cr s i hs ih =>
    intro hinc hnd
    have hle := hs.lab_le hinc.2.2.1
    have hi : i < _ := hinc.1
    have hndt := (List.nodup_cons.mp hnd).2
    obtain ⟨hndl, hndr, hdisj⟩ := List.nodup_append.mp hndt
    rw [frontier, if_neg (by omega), frontier, if_neg (by omega)]
    have hklcl : s.lab ∈ cl.labels := hs.labels_subset _ s.lab_mem_labels
    have hkcr : s.lab ∉ cr.labels := hdisj hklcl
    have hck : ∀ a ∈ s.childKeys, a ∉ keys (frontier (s.lab + 1) cr) := by
      intro a ha hmem
      have hacl : a ∈ cl.labels :=
        hs.labels_subset _ (s.childKeys_subset a ha)
      have hacr : a ∈ cr.labels :=
        (keys_frontier_sublist (s.lab + 1) cr).subset hmem
      exact hdisj hacl hacr
    rw [frontier_congr hkcr, eraseKeys_append_of_not_mem_right hck]
    exact List.Perm.append (ih hinc.2.2.1 hndl) (List.Perm.refl _)
  | @bothR cl cr s i hs ih =>
    intro hinc hnd
    have hle := hs.lab_le hinc.2.2.2
    have hi : i < _ := hinc.2.1
    have hndt := (List.nodup_cons.mp hnd).2
    obtain ⟨hndl, hndr, hdisj⟩ := List.nodup_append.mp hndt
    rw [frontier, if_neg (by omega), frontier, if_neg (by omega)]
    have hklcr : s.lab ∈ cr.labels := hs.labels_subset _ s.lab_mem_labels
    have hkcl : s.lab ∉ cl.labels := fun hm => hdisj hm hklcr
    have hck : ∀ a ∈ s.childKeys, a ∉ keys (frontier (s.lab + 1) cl) := by
      intro a ha hmem
      have hacr : a ∈ cr.labels :=
        hs.labels_subset _ (s.childKeys_subset a ha)
      have hacl : a ∈ cl.labels :=
        (keys_frontier_sublist (s.lab + 1) cl).subset hmem
      exact hdisj hacl hacr
    rw [frontier_congr hkcl, eraseKeys_append_of_not_mem_left hck]
    refine List.Perm.trans
      (List.Perm.append (List.Perm.refl _) (ih hinc.2.2.2 hndr)) ?_
    exact List.perm_middle

/-! ### The unflattener inverts the flattener -/

/-- Processing index `s.lab` succeeds on any cache that is (a permutation
of) the frontier just above it, and produces the frontier at `s.lab`. -/
theorem unflattenStep_frontier {N : List Nat} {it s : ITrie} {c : List (Nat × Trie)}
    (hsub : Sub it s) (hinc : it.Inc) (hnd : it.labels.Nodup)
    (hagree : Agrees N it) (hperm : c.Perm (frontier (s.lab + 1) it)) :
    ∃ c2, unflattenStep N s.lab c = some c2 ∧ c2.Perm (frontier s.lab it) := by
  have hagrees : Agrees N s := hsub.agrees hagree
  have hincs : s.Inc := hsub.inc hinc
  have hnds : s.labels.Nodup := hsub.labels_nodup hnd
  have hndF : (keys (frontier (s.lab + 1) it)).Nodup :=
    (keys_frontier_sublist _ _).nodup hnd
  have hndc : (keys c).Nodup := (keys_perm hperm).symm.nodup hndF
  have hknotc : s.lab ∉ keys c := by
    intro hm
    have : s.lab ∈ keys (frontier (s.lab + 1) it) :=
      ((keys_perm hperm).mem_iff).mp hm
    have := keys_frontier_ge (s.lab + 1) it _ this
    omega
  have hstepfr := frontier_step hsub hinc hnd
  cases s with
  | tip j =>
    have h1 : N.getD (j * 2) 0 = 0 := by rw [Nat.mul_comm]; exact hagrees.1
    have h2 : N.getD (j * 2 + 1) 0 = 0 := by rw [Nat.mul_comm]; exact hagrees.2
    refine ⟨(j, Trie.node none none) :: c, ?_, ?_⟩
    · have hl : (ITrie.tip j).lab = j := rfl
      simp only [hl, unflattenStep, h1, h2, takeChild_zero, cinsert]
      rw [eraseKey_of_not_mem (show j ∉ keys c from hknotc)]
    · refine List.Perm.trans ?_ hstepfr.symm
      exact List.Perm.cons _ hperm
  | lonly j c0 =>
    have hc0 : j < c0.lab := hincs.1
    have h1 : N.getD (j * 2) 0 = c0.lab := by rw [Nat.mul_comm]; exact hagrees.1
    have h2 : N.getD (j * 2 + 1) 0 = 0 := by rw [Nat.mul_comm]; exact hagrees.2.1
    have hmemF : (c0.lab, c0.strip) ∈ frontier (j + 1) it :=
      childNodes_mem_frontier hsub c0 (by simp [ITrie.childNodes]) hinc
    have hmemc : (c0.lab, c0.strip) ∈ c := hperm.mem_iff.mpr hmemF
    have hrem := cremove_of_mem hndc hmemc
    have hknot1 : j ∉ keys (eraseKey c0.lab c) :=
      fun hm => hknotc ((keys_eraseKey_sublist _ _).subset hm)
    refine ⟨(j, Trie.node (some c0.strip) none) :: eraseKey c0.lab c, ?_, ?_⟩
    · have hl : (ITrie.lonly j c0).lab = j := rfl
      simp only [hl, unflattenStep, h1, h2,
        takeChild_found (by omega : ¬ c0.lab = 0) hrem, takeChild_zero, cinsert]
      rw [eraseKey_of_not_mem (show j ∉ keys (eraseKey c0.lab c) from hknot1)]
    · refine List.Perm.trans ?_ hstepfr.symm
      exact List.Perm.cons _ (perm_eraseKey hperm hndc _)
  | ronly j c0 =>
    have hc0 : j < c0.lab := hincs.1
    have h1 : N.getD (j * 2) 0 = 0 := by rw [Nat.mul_comm]; exact hagrees.1
    have h2 : N.getD (j * 2 + 1) 0 = c0.lab := by rw [Nat.mul_comm]; exact hagrees.2.1
    have hmemF : (c0.lab, c0.strip) ∈ frontier (j + 1) it :=
      childNodes_mem_frontier hsub c0 (by simp [ITrie.childNodes]) hinc
    have hmemc : (c0.lab, c0.strip) ∈ c := hperm.mem_iff.mpr hmemF
    have hrem := cremove_of_mem hndc hmemc
    have hknot1 : j ∉ keys (eraseKey c0.lab c) :=
      fun hm => hknotc ((keys_eraseKey_sublist _ _).subset hm)
    refine ⟨(j, Trie.node none (some c0.strip)) :: eraseKey c0.lab c, ?_, ?_⟩
    · have hl : (ITrie.ronly j c0).lab = j := rfl
      simp only [hl, unflattenStep, h1, h2, takeChild_zero,
        takeChild_found (by omega : ¬ c0.lab = 0) hrem, cinsert]
      rw [eraseKey_of_not_mem (show j ∉ keys (eraseKey c0.lab c) from hknot1)]
    · refine List.Perm.trans ?_ hstepfr.symm
      exact List.Perm.cons _ (perm_eraseKey hperm hndc _)
  | both j cl0 cr0 =>
    have hcl0 : j < cl0.lab := hincs.1
    have hcr0 : j < cr0.lab := hincs.2.1
    have hlabne : cl0.lab ≠ cr0.lab := by
      intro he
      have hndt := (List.nodup_cons.mp hnds).2
      obtain ⟨_, _, hdisj⟩ := List.nodup_append.mp hndt
      exact hdisj cl0.lab_mem_labels (he ▸ cr0.lab_mem_labels)
    have h1 : N.getD (j * 2) 0 = cl0.lab := by rw [Nat.mul_comm]; exact hagrees.1
    have h2 : N.getD (j * 2 + 1) 0 = cr0.lab := by rw [Nat.mul_comm]; exact hagrees.2.1
    have hmemFl : (cl0.lab, cl0.strip) ∈ frontier (j + 1) it :=
      childNodes_mem_frontier hsub cl0 (by simp [ITrie.childNodes]) hinc
    have hmemFr : (cr0.lab, cr0.strip) ∈ frontier (j + 1) it :=
      childNodes_mem_frontier hsub cr0 (by simp [ITrie.childNodes]) hinc
    have hmemcl : (cl0.lab, cl0.strip) ∈ c := hperm.mem_iff.mpr hmemFl
    have hreml := cremove_of_mem hndc hmemcl
    have hndc1 : (keys (eraseKey cl0.lab c)).Nodup :=
      (keys_eraseKey_sublist _ _).nodup hndc
    have hmemcr : (cr0.lab, cr0.strip) ∈ eraseKey cl0.lab c :=
      (mem_eraseKey (fun he => hlabne he.symm)).mpr (hperm.mem_iff.mpr hmemFr)
    have hremr := cremove_of_mem hndc1 hmemcr
    have hknot1 : j ∉ keys (eraseKey cr0.lab (eraseKey cl0.lab c)) := fun hm =>
      hknotc ((keys_eraseKey_sublist _ _).subset
        ((keys_eraseKey_sublist _ _).subset hm))
    refine ⟨(j, Trie.node (some cl0.strip) (some cr0.strip)) ::
      eraseKey cr0.lab (eraseKey cl0.lab c), ?_, ?_⟩
    · have hl : (ITrie.both j cl0 cr0).lab = j := rfl
      simp only [hl, unflattenStep, h1, h2,
        takeChild_found (by omega : ¬ cl0.lab = 0) hreml,
        takeChild_found (by omega : ¬ cr0.lab = 0) hremr, cinsert]
      rw [eraseKey_of_not_mem
        (show j ∉ keys (eraseKey cr0.lab (eraseKey cl0.lab c)) from hknot1)]
    · refine List.Perm.trans ?_ hstepfr.symm
      refine List.Perm.cons _ ?_
      exact perm_eraseKey (perm_eraseKey hperm hndc _) hndc1 _

/-- Running the countdown from `k` on (a permutation of) `frontier k`
always succeeds, ending with the frontier at 0. -/
theorem unflattenLoop_frontier {N : List Nat} {it : ITrie} {n : Nat}
    (hinc : it.Inc) (hnd : it.labels.Nodup) (hagree : Agrees N it)
    (hmem : ∀ j, j < n → j ∈ it.labels) :
    ∀ k, k ≤ n → ∀ c, c.Perm (frontier k it) →
      ∃ c2, unflattenLoop N k c = some c2 ∧ c2.Perm (frontier 0 it) := by
  intro k
  induction k with
  | zero =>
    intro _ c hc
    exact ⟨c, rfl, hc⟩
  | succ k ih =>
    intro hk c hc
    obtain ⟨s, hsub, hslab⟩ := Sub.exists_of_mem (hmem k (by omega))
    have hc' : c.Perm (frontier (s.lab + 1) it) := by
      rw [hslab]
      exact hc
    obtain ⟨c2, hstep, hc2⟩ := unflattenStep_frontier hsub hinc hnd hagree hc'
    have hc2' : c2.Perm (frontier k it) := by
      rw [← hslab]
      exact hc2
    have hstep' : unflattenStep N k c = some c2 := by
      rw [← hslab]
      exact hstep
    have hloop : unflattenLoop N (k + 1) c = unflattenLoop N k c2 := by
      rw [unflattenLoop, hstep']
    rw [hloop]
    exact ih (by omega) c2 hc2'

/-- The unflattener exactly inverts the flattener (shared helper). -/
theorem nodes_to_trie_trie_to_nodes (t : Trie) :
    nodes_to_trie (trie_to_nodes t) = some t := by
  obtain ⟨it, hstrip, hlab, hperm, hinc, _, hagree⟩ := trie_to_nodes_spec t
  have hnd : it.labels.Nodup := hperm.symm.nodup (List.nodup_range _)
  have hmem : ∀ j, j < t.size → j ∈ it.labels := fun j hj =>
    hperm.mem_iff.mpr (List.mem_range.mpr hj)
  have hcempty : ([] : List (Nat × Trie)).Perm (frontier t.size it) := by
    rw [frontier_empty (fun j hj => List.mem_range.mp (hperm.mem_iff.mp hj))]
  obtain ⟨c2, hloop, hc2⟩ := unflattenLoop_frontier hinc hnd hagree hmem
    t.size (le_refl _) [] hcempty
  have hfront0 : frontier 0 it = [(0, t)] := by
    rw [frontier_top (Nat.zero_le _), hlab, hstrip]
  rw [hfront0] at hc2
  have hc2' : c2 = [(0, t)] := List.perm_singleton.mp hc2
  rw [nodes_to_trie,
    show (trie_to_nodes t).length / 2 = t.size from by rw [trie_to_nodes_length]; omega,
    hloop, hc2']
  simp [cremove]

theorem Sub.rightFirst {it s : ITrie} (h : Sub it s) :
    it.RightFirst → s.RightFirst := by
  induction h with
  | refl it => exact fun h => h
  | lonly i hsub ih => exact fun hrf => ih hrf
  | ronly i hsub ih => exact fun hrf => ih hrf
  | bothL i hsub ih => exact fun hrf => ih hrf.2.1
  | bothR i hsub ih => exact fun hrf => ih hrf.2.2

/-- Every index below the node count is the label of some node of the
indexed tree underlying `trie_to_nodes t`. -/
theorem node_at_index (t : Trie) (i : Nat) (hi : i < t.size) :
    ∃ s : ITrie, s.lab = i ∧ Agrees (trie_to_nodes t) s ∧ s.Inc ∧ s.RightFirst := by
  obtain ⟨it, _, _, hperm, hinc, hrf, hagree⟩ := trie_to_nodes_spec t
  obtain ⟨s, hsub, hslab⟩ :=
    Sub.exists_of_mem (hperm.mem_iff.mpr (List.mem_range.mpr hi))
  exact ⟨s, hslab, hsub.agrees hagree, hsub.inc hinc, hsub.rightFirst hrf⟩

/-- A small concrete trie (root with two terminal children) used to witness
the hypotheses of the invariant theorems. -/
def sampleTrie : Trie := .node (some (.node none none)) (some (.node none none))

theorem sampleTrie_nodes : trie_to_nodes sampleTrie = [2, 1, 0, 0, 0, 0] := by
  simp [sampleTrie, trie_to_nodes, flattenLoop]

/-- C1: round-trip losslessness: for every binary trie `t`,
`nodes_to_trie (trie_to_nodes t)` reconstructs exactly `t`. -/
theorem roundtrip_lossless (t : Trie) :
    nodes_to_trie (trie_to_nodes t) = some t :=
  nodes_to_trie_trie_to_nodes t

/-- C2: every nonzero child index recorded at a node's pair of slots is
strictly greater than that node's own index (so `0` in a child slot never
refers back to the root, which is the only node with index 0). -/
theorem child_index_gt_parent (t : Trie) (i : Nat)
    (h : 2 * i + 1 < (trie_to_nodes t).length) :
    ((trie_to_nodes t).getD (2 * i) 0 = 0 ∨ i < (trie_to_nodes t).getD (2 * i) 0) ∧
    ((trie_to_nodes t).getD (2 * i + 1) 0 = 0 ∨
      i < (trie_to_nodes t).getD (2 * i + 1) 0) := by
  have hlen := trie_to_nodes_length t
  have hi : i < t.size := by omega
  obtain ⟨s, hslab, hagree, hinc, _⟩ := node_at_index t i hi
  subst hslab
  cases s with
  | tip j => exact ⟨Or.inl hagree.1, Or.inl hagree.2⟩
  | lonly j c =>
    refine ⟨Or.inr ?_, Or.inl hagree.2.1⟩
    have h1 : (trie_to_nodes t).getD (2 * (ITrie.lonly j c).lab) 0 = c.lab :=
      hagree.1
    rw [h1]
    exact hinc.1
  | ronly j c =>
    refine ⟨Or.inl hagree.1, Or.inr ?_⟩
    have h2 : (trie_to_nodes t).getD (2 * (ITrie.ronly j c).lab + 1) 0 = c.lab :=
      hagree.2.1
    rw [h2]
    exact hinc.1
  | both j cl cr =>
    refine ⟨Or.inr ?_, Or.inr ?_⟩
    · have h1 : (trie_to_nodes t).getD (2 * (ITrie.both j cl cr).lab) 0 = cl.lab :=
        hagree.1
      rw [h1]
      exact hinc.1
    · have h2 : (trie_to_nodes t).getD (2 * (ITrie.both j cl cr).lab + 1) 0 = cr.lab :=
        hagree.2.1
      rw [h2]
      exact hinc.2.1

theorem child_index_gt_parent_witness :
    (2 * 0 + 1 < (trie_to_nodes sampleTrie).length) ∧
    (((trie_to_nodes sampleTrie).getD (2 * 0) 0 = 0 ∨
        0 < (trie_to_nodes sampleTrie).getD (2 * 0) 0) ∧
      ((trie_to_nodes sampleTrie).getD (2 * 0 + 1) 0 = 0 ∨
        0 < (trie_to_nodes sampleTrie).getD (2 * 0 + 1) 0)) :=
  ⟨by rw [sampleTrie_nodes]; decide,
   child_index_gt_parent sampleTrie 0 (by rw [sampleTrie_nodes]; decide)⟩

/-- C3: the unflattener never fails on flattener output: every
`cache.remove(..).unwrap()` succeeds, and a trie is always returned. -/
theorem unflatten_never_fails (t : Trie) :
    ∃ t' : Trie, nodes_to_trie (trie_to_nodes t) = some t' :=
  ⟨t, nodes_to_trie_trie_to_nodes t⟩

/-- C4: the flattened output has exactly one (left, right) entry per trie
node: its length as a flat vector of indices is twice the node count. -/
theorem flattened_length_eq_node_count (t : Trie) :
    (trie_to_nodes t).length = 2 * t.size ∧
    (trie_to_nodes t).length / 2 = t.size := by
  have h := trie_to_nodes_length t
  omega

/-- C5: whenever a node has both children, the right child was allocated
the earlier slot: its recorded index is strictly smaller than the left
child's. -/
theorem right_child_allocated_first (t : Trie) (i : Nat)
    (h1 : (trie_to_nodes t).getD (2 * i) 0 ≠ 0)
    (h2 : (trie_to_nodes t).getD (2 * i + 1) 0 ≠ 0) :
    (trie_to_nodes t).getD (2 * i + 1) 0 < (trie_to_nodes t).getD (2 * i) 0 := by
  have hlen := trie_to_nodes_length t
  have hi : i < t.size := by
    by_contra hge
    exact h1 (List.getD_eq_default _ _ (by omega))
  obtain ⟨s, hslab, hagree, hinc, hrf⟩ := node_at_index t i hi
  subst hslab
  cases s with
  | tip j => exact absurd hagree.1 h1
  | lonly j c => exact absurd hagree.2.1 h2
  | ronly j c => exact absurd hagree.1 h1
  | both j cl cr =>
    have ha1 : (trie_to_nodes t).getD (2 * (ITrie.both j cl cr).lab) 0 = cl.lab :=
      hagree.1
    have ha2 : (trie_to_nodes t).getD (2 * (ITrie.both j cl cr).lab + 1) 0 = cr.lab :=
      hagree.2.1
    rw [ha1, ha2]
    exact hrf.1

theorem right_child_allocated_first_witness :
    ((trie_to_nodes sampleTrie).getD (2 * 0) 0 ≠ 0) ∧
    ((trie_to_nodes sampleTrie).getD (2 * 0 + 1) 0 ≠ 0) ∧
    (trie_to_nodes sampleTrie).getD (2 * 0 + 1) 0 <
      (trie_to_nodes sampleTrie).getD (2 * 0) 0 :=
  ⟨by rw [sampleTrie_nodes]; decide, by rw [sampleTrie_nodes]; decide,
   right_child_allocated_first sampleTrie 0 (by rw [sampleTrie_nodes]; decide)
     (by rw [sampleTrie_nodes]; decide)⟩

/-- C9: the concrete encoding is one interleaved vector of twice the node
count (even, at least 2), where positions `2*i` and `2*i+1` hold node `i`'s
left- and right-child indices, as exhibited by an indexed tree over `t`
rooted at index 0 whose labels exhaust `0, …, size - 1`. -/
theorem interleaved_encoding (t : Trie) :
    (trie_to_nodes t).length = 2 * t.size ∧ 2 ≤ (trie_to_nodes t).length ∧
    ∃ it : ITrie, it.strip = t ∧ it.lab = 0 ∧
      it.labels.Perm (List.range t.size) ∧ Agrees (trie_to_nodes t) it := by
  have h := trie_to_nodes_length t
  have hs := Trie.size_pos t
  obtain ⟨it, h1, h2, h3, _, _, h6⟩ := trie_to_nodes_spec t
  exact ⟨h, by omega, it, h1, h2, h3, h6⟩

/-- C10: the unflattener requires non-empty input: on `[]` the final
`cache.remove(&0).unwrap()` fails (modelled as `none`). -/
theorem unflatten_empty_fails : nodes_to_trie ([] : List Nat) = none := rfl

/-! ### Each non-root index is referenced as a child exactly once -/

/-- All child references recorded in an indexed tree, one per edge. -/
def ITrie.childLabels : ITrie → List Nat
  | .tip _ => []
  | .lonly _ c => c.lab :: c.childLabels
  | .ronly _ c => c.lab :: c.childLabels
  | .both _ cl cr => cl.lab :: cr.lab :: (cl.childLabels ++ cr.childLabels)

/-- Every node is either the root or exactly one node's child. -/
theorem childLabels_perm (it : ITrie) :
    (it.lab :: it.childLabels).Perm it.labels := by
  induction it with
  | tip i => exact List.Perm.refl _
  | lonly i c ih =>
    exact List.Perm.cons _ ih
  | ronly i c ih =>
    exact List.Perm.cons _ ih
  | both i cl cr ihl ihr =>
    refine List.Perm.cons _ ?_
    show (cl.lab :: cr.lab :: (cl.childLabels ++ cr.childLabels)).Perm
      (cl.labels ++ cr.labels)
    refine List.Perm.trans ?_ (ihl.append ihr)
    refine List.Perm.cons _ ?_
    exact List.perm_middle.symm

theorem flatMap_congr {l : List Nat} {f g : Nat → List Nat}
    (h : ∀ a ∈ l, f a = g a) : l.flatMap f = l.flatMap g := by
  induction l with
  | nil => rfl
  | cons a l' ih =>
    rw [List.flatMap_cons, List.flatMap_cons, h a (by simp),
      ih fun b hb => h b (by simp [hb])]

/-- Any even-length vector is the interleaving of its index pairs. -/
theorem interleave_eq :
    ∀ (n : Nat) (N : List Nat), N.length = 2 * n →
      N = (List.range n).flatMap (fun i => [N.getD (2 * i) 0, N.getD (2 * i + 1) 0]) := by
  intro n
  induction n with
  | zero =>
    intro N hN
    cases N with
    | nil => rfl
    | cons a N' => simp at hN
  | succ n ih =>
    intro N hN
    have hsplit := (List.take_append_drop (2 * n) N).symm
    have hA : (N.take (2 * n)).length = 2 * n := by
      rw [List.length_take]
      omega
    have hgetA : ∀ p, p < 2 * n → (N.take (2 * n)).getD p 0 = N.getD p 0 := by
      intro p hp
      rw [List.getD_eq_getElem?_getD, List.getD_eq_getElem?_getD,
        List.getElem?_take, if_pos hp]
    have hB : (N.drop (2 * n)).length = 2 := by
      rw [List.length_drop]
      omega
    have hgetB : ∀ p, (N.drop (2 * n)).getD p 0 = N.getD (2 * n + p) 0 := by
      intro p
      rw [List.getD_eq_getElem?_getD, List.getD_eq_getElem?_getD,
        List.getElem?_drop]
    have hBform : N.drop (2 * n) = [N.getD (2 * n) 0, N.getD (2 * n + 1) 0] := by
      match hd : N.drop (2 * n), hB with
      | [a, b], _ =>
        have ha : a = N.getD (2 * n) 0 := by
          have := hgetB 0
          rw [hd] at this
          simpa using this
        have hb : b = N.getD (2 * n + 1) 0 := by
          have := hgetB 1
          rw [hd] at this
          simpa using this
        rw [ha, hb]
    rw [List.range_succ, List.flatMap_append, List.flatMap_cons, List.flatMap_nil]
    have hIH := ih (N.take (2 * n)) hA
    have hcongr : (List.range n).flatMap
        (fun i => [(N.take (2 * n)).getD (2 * i) 0, (N.take (2 * n)).getD (2 * i + 1) 0]) =
        (List.range n).flatMap (fun i => [N.getD (2 * i) 0, N.getD (2 * i + 1) 0]) := by
      refine flatMap_congr ?_
      intro a ha
      have han : a < n := List.mem_range.mp ha
      rw [hgetA (2 * a) (by omega), hgetA (2 * a + 1) (by omega)]
    calc N = N.take (2 * n) ++ N.drop (2 * n) := hsplit
      _ = (List.range n).flatMap (fun i => [N.getD (2 * i) 0, N.getD (2 * i + 1) 0]) ++
            [N.getD (2 * n) 0, N.getD (2 * n + 1) 0] := by
          rw [← hcongr, ← hIH, hBform]
      _ = (List.range n).flatMap (fun i => [N.getD (2 * i) 0, N.getD (2 * i + 1) 0]) ++
            ([N.getD (2 * n) 0, N.getD (2 * n + 1) 0] ++ []) := by
          rw [List.append_nil]

/-- Summing the per-node slot counts over all nodes counts the child
references of the tree. -/
theorem count_slots_eq_childLabels (N : List Nat) (v : Nat) (hv : v ≠ 0) :
    ∀ it : ITrie, Agrees N it →
      (it.labels.map
        (fun i => List.count v [N.getD (2 * i) 0, N.getD (2 * i + 1) 0])).sum =
      it.childLabels.count v := by
  intro it
  induction it with
  | tip i =>
    intro ha
    simp only [ITrie.labels, ITrie.childLabels, List.map_cons, List.map_nil,
      List.sum_cons, List.sum_nil, ha.1, ha.2]
    simp [List.count_cons, List.count_nil, hv]
  | lonly i c ih =>
    intro ha
    simp only [ITrie.labels, ITrie.childLabels, List.map_cons, List.sum_cons,
      ha.1, ha.2.1, ih ha.2.2]
    simp [List.count_cons, hv]
    omega
  | ronly i c ih =>
    intro ha
    simp only [ITrie.labels, ITrie.childLabels, List.map_cons, List.sum_cons,
      ha.1, ha.2.1, ih ha.2.2]
    simp [List.count_cons, hv]
    omega
  | both i cl cr ihl ihr =>
    intro ha
    simp only [ITrie.labels, ITrie.childLabels, List.map_cons, List.map_append,
      List.sum_cons, List.sum_append, ha.1, ha.2.1, ihl ha.2.2.1, ihr ha.2.2.2]
    simp [List.count_cons, List.count_append, hv]
    omega

/-- C8: the multiset of nonzero child indices in the flattened output is
exactly `{1, …, size - 1}`, each occurring once. -/
theorem child_indices_exactly_once (t : Trie) :
    ((trie_to_nodes t).filter (fun v => !(v == 0))).Perm
      (List.range' 1 (t.size - 1)) := by
  obtain ⟨it, _, hlab, hperm, _, _, hagree⟩ := trie_to_nodes_spec t
  have hlen := trie_to_nodes_length t
  have hsz := Trie.size_pos t
  rw [List.perm_iff_count]
  intro v
  by_cases hv : v = 0
  · subst hv
    rw [List.count_eq_zero.mpr, List.count_eq_zero.mpr]
    · intro hm
      have := List.mem_range'_1.mp hm
      omega
    · intro hm
      have := (List.mem_filter.mp hm).2
      simp at this
  · have hcf : List.count v ((trie_to_nodes t).filter (fun v => !(v == 0))) =
        List.count v (trie_to_nodes t) :=
      List.count_filter (by simp [hv])
    rw [hcf]
    have hinterleave := interleave_eq t.size (trie_to_nodes t) hlen
    rw [hinterleave, List.count_flatMap]
    have hcomp : (List.map
        (List.count v ∘ fun i => [(trie_to_nodes t).getD (2 * i) 0,
          (trie_to_nodes t).getD (2 * i + 1) 0]) (List.range t.size)).sum =
        (List.map
          (fun i => List.count v [(trie_to_nodes t).getD (2 * i) 0,
            (trie_to_nodes t).getD (2 * i + 1) 0]) (List.range t.size)).sum := rfl
    rw [hcomp, ← (hperm.map _).sum_eq,
      count_slots_eq_childLabels (trie_to_nodes t) v hv it hagree]
    have hcl : it.childLabels.count v = it.labels.count v := by
      rw [← (childLabels_perm it).count_eq v, hlab,
        List.count_cons_of_ne (by omega)]
    rw [hcl, hperm.count_eq v]
    by_cases hvn : v < t.size
    · rw [List.count_eq_one_of_mem (List.nodup_range _) (List.mem_range.mpr hvn),
        List.count_eq_one_of_mem (List.nodup_range' _ _)
          (List.mem_range'_1.mpr (by omega))]
    · rw [List.count_eq_zero_of_not_mem (by simp [List.mem_range]; omega),
        List.count_eq_zero_of_not_mem (by
          intro hm
          have := List.mem_range'_1.mp hm
          omega)]

/-! ### Spec-modelled prefix-set simplification (C7)

The binary delegates `IpRange::add` / `simplify` to its library crate
(`ipcheck_rs`), whose sources are not in this tree; the spec (§3, §4.1)
describes `simplify` as canonicalization to the unique minimal cover:
drop any member contained in a broader member, merge complementary
sibling pairs into their parent, repeated to a fixed point.  We model a
prefix as its bit path (`List Bool`, one entry per bit of the prefix
length) and the canonical form through cover tries. -/

/-- Modelled from the spec: a cover trie denotes a nonempty set of
addresses closed under the canonical-form rules.  `full` marks the whole
subtree matched (a prefix ending here); `l`/`r`/`lr` record which halves
contain matches. -/
inductive CT where
  | full : CT
  | l : CT → CT
  | r : CT → CT
  | lr : CT → CT → CT

/-- Smart node constructor: two fully covered halves merge into their
parent (the spec's sibling-merge rule). -/
def mkNode : CT → CT → CT
  | .full, .full => .full
  | a, b => .lr a b

/-- The cover of a single prefix, given as its bit path. -/
def ofPath : List Bool → CT
  | [] => .full
  | false :: bs => .l (ofPath bs)
  | true :: bs => .r (ofPath bs)

/-- Union of two covers; a member absorbed by a broader one disappears
(containment pruning) and siblings that become complementary merge. -/
def union : CT → CT → CT
  | .full, _ => .full
  | .l _, .full => .full
  | .r _, .full => .full
  | .lr _ _, .full => .full
  | .l a, .l b => .l (union a b)
  | .l a, .r b => mkNode a b
  | .l a, .lr b c => mkNode (union a b) c
  | .r a, .l b => mkNode b a
  | .r a, .r b => .r (union a b)
  | .r a, .lr b c => mkNode b (union a c)
  | .lr a b, .l c => mkNode (union a c) b
  | .lr a b, .r c => mkNode a (union b c)
  | .lr a b, .lr c d => mkNode (union a c) (union b d)

/-- Canonical covers: no two complementary fully-covered siblings remain. -/
def CT.Norm : CT → Prop
  | .full => True
  | .l a => a.Norm
  | .r a => a.Norm
  | .lr a b => ¬ (a = .full ∧ b = .full) ∧ a.Norm ∧ b.Norm

/-- Fold a prefix into an optional cover (`none` = empty set so far). -/
def addPath (p : List Bool) : Option CT → Option CT
  | none => some (ofPath p)
  | some t => some (union (ofPath p) t)

/-- The cover of a whole prefix set. -/
def toCT (ps : List (List Bool)) : Option CT := ps.foldr addPath none

/-- Read the canonical prefix list back off a cover. -/
def fromCT : CT → List (List Bool)
  | .full => [[]]
  | .l a => (fromCT a).map (fun p => false :: p)
  | .r a => (fromCT a).map (fun p => true :: p)
  | .lr a b =>
    (fromCT a).map (fun p => false :: p) ++ (fromCT b).map (fun p => true :: p)

/-- Modelled from the spec: `IpRange::simplify` — canonicalize a prefix
set to the minimal equivalent set with no overlaps, no redundant
sub-prefixes and no unmerged sibling pairs. -/
def simplify (ps : List (List Bool)) : List (List Bool) :=
  match toCT ps with
  | none => []
  | some t => fromCT t

theorem union_full_right (a : CT) : union a .full = .full := by
  cases a <;> rfl

theorem norm_mkNode {a b : CT} (ha : a.Norm) (hb : b.Norm) : (mkNode a b).Norm := by
  cases a <;> cases b <;>
    first
      | exact trivial
      | exact ⟨fun h => CT.noConfusion h.1, ha, hb⟩
      | exact ⟨fun h => CT.noConfusion h.2, ha, hb⟩

theorem norm_ofPath (p : List Bool) : (ofPath p).Norm := by
  induction p with
  | nil => trivial
  | cons b bs ih => cases b <;> exact ih

theorem norm_union : ∀ a b : CT, a.Norm → b.Norm → (union a b).Norm := by
  intro a
  induction a with
  | full => intro b _ _; exact trivial
  | l a' ih =>
    intro b ha hb
    cases b with
    | full => exact trivial
    | l b' => exact ih b' ha hb
    | r b' => exact norm_mkNode ha hb
    | lr b1 b2 => exact norm_mkNode (ih b1 ha hb.2.1) hb.2.2
  | r a' ih =>
    intro b ha hb
    cases b with
    | full => exact trivial
    | l b' => exact norm_mkNode hb ha
    | r b' => exact ih b' ha hb
    | lr b1 b2 => exact norm_mkNode hb.2.1 (ih b2 ha hb.2.2)
  | lr a1 a2 ih1 ih2 =>
    intro b ha hb
    cases b with
    | full => exact trivial
    | l b' => exact norm_mkNode (ih1 b' ha.2.1 hb) ha.2.2
    | r b' => exact norm_mkNode ha.2.1 (ih2 b' ha.2.2 hb)
    | lr b1 b2 => exact norm_mkNode (ih1 b1 ha.2.1 hb.2.1) (ih2 b2 ha.2.2 hb.2.2)

theorem norm_toCT : ∀ {ps : List (List Bool)} {t : CT}, toCT ps = some t → t.Norm := by
  intro ps
  induction ps with
  | nil => intro t h; cases h
  | cons p ps' ih =>
    intro t h
    rw [toCT, List.foldr_cons] at h
    rcases hc : List.foldr addPath none ps' with _ | u
    · rw [hc] at h
      rw [addPath] at h
      cases h
      exact norm_ofPath p
    · rw [hc] at h
      rw [addPath] at h
      cases h
      exact norm_union _ _ (norm_ofPath p) (ih hc)

theorem mkNode_eq_lr {a b : CT} (h : ¬ (a = .full ∧ b = .full)) :
    mkNode a b = .lr a b := by
  cases a <;> cases b <;> first
    | rfl
    | exact absurd ⟨rfl, rfl⟩ h

theorem union_l_mkNode (x v u : CT) :
    union (.l x) (mkNode v u) = mkNode (union x v) u := by
  cases v <;> cases u <;> simp [mkNode, union, union_full_right]

theorem toCT_map_false (ps : List (List Bool)) :
    toCT (ps.map (fun p => false :: p)) = (toCT ps).map CT.l := by
  induction ps with
  | nil => rfl
  | cons p ps' ih =>
    rw [List.map_cons, toCT, List.foldr_cons, show List.foldr addPath none
      (List.map (fun p => false :: p) ps') = toCT (List.map (fun p => false :: p) ps')
      from rfl, ih]
    rcases hc : toCT ps' with _ | u
    · rw [show toCT (p :: ps') = addPath p (toCT ps') from rfl, hc]
      rfl
    · rw [show toCT (p :: ps') = addPath p (toCT ps') from rfl, hc]
      rfl

theorem toCT_map_true (ps : List (List Bool)) :
    toCT (ps.map (fun p => true :: p)) = (toCT ps).map CT.r := by
  induction ps with
  | nil => rfl
  | cons p ps' ih =>
    rw [List.map_cons, toCT, List.foldr_cons, show List.foldr addPath none
      (List.map (fun p => true :: p) ps') = toCT (List.map (fun p => true :: p) ps')
      from rfl, ih]
    rcases hc : toCT ps' with _ | u
    · rw [show toCT (p :: ps') = addPath p (toCT ps') from rfl, hc]
      rfl
    · rw [show toCT (p :: ps') = addPath p (toCT ps') from rfl, hc]
      rfl

/-- Attach an optional left cover next to a right cover. -/
def withRight (o : Option CT) (u : CT) : CT :=
  match o with
  | none => .r u
  | some v => mkNode v u

theorem foldr_left_over_right :
    ∀ (xs : List (List Bool)) (u : CT),
      (xs.map (fun p => false :: p)).foldr addPath (some (.r u)) =
        some (withRight (toCT xs) u) := by
  intro xs
  induction xs with
  | nil => intro u; rfl
  | cons x xs' ih =>
    intro u
    rw [List.map_cons, List.foldr_cons, ih u]
    rcases hc : toCT xs' with _ | v
    · rw [show toCT (x :: xs') = addPath x (toCT xs') from rfl, hc]
      rfl
    · rw [show toCT (x :: xs') = addPath x (toCT xs') from rfl, hc]
      show some (union (.l (ofPath x)) (withRight (some v) u)) =
        some (withRight (some (union (ofPath x) v)) u)
      rw [show withRight (some v) u = mkNode v u from rfl,
        show withRight (some (union (ofPath x) v)) u = mkNode (union (ofPath x) v) u
          from rfl, union_l_mkNode]

/-- Reading a canonical cover back as a prefix list and re-folding it
reproduces the cover exactly. -/
theorem toCT_fromCT : ∀ t : CT, t.Norm → toCT (fromCT t) = some t := by
  intro t
  induction t with
  | full => intro _; rfl
  | l a ih =>
    intro hn
    rw [fromCT, toCT_map_false, ih hn]
    rfl
  | r a ih =>
    intro hn
    rw [fromCT, toCT_map_true, ih hn]
    rfl
  | lr a b ih1 ih2 =>
    intro hn
    rw [fromCT, toCT, List.foldr_append, show List.foldr addPath none
      ((fromCT b).map (fun p => true :: p)) = toCT ((fromCT b).map (fun p => true :: p))
      from rfl, toCT_map_true, ih2 hn.2.2]
    rw [show ((some b).map CT.r) = some (CT.r b) from rfl]
    rw [show List.foldr addPath (some (CT.r b)) ((fromCT a).map (fun p => false :: p)) =
      some (withRight (toCT (fromCT a)) b) from foldr_left_over_right (fromCT a) b]
    rw [ih1 hn.2.1]
    rw [show withRight (some a) b = mkNode a b from rfl, mkNode_eq_lr hn.1]

/-- C7: `simplify` is idempotent. -/
theorem simplify_idempotent (ps : List (List Bool)) :
    simplify (simplify ps) = simplify ps := by
  rcases h : toCT ps with _ | t
  · have hs : simplify ps = [] := by rw [simplify, h]
    rw [hs]
    rfl
  · have hs : simplify ps = fromCT t := by rw [simplify, h]
    rw [hs, simplify, toCT_fromCT t (norm_toCT h)]

/-! ### The main pipeline (C6)

`main` loads and simplifies the IPv4 records, builds and flattens the
trie, then does the same for IPv6, renders the template, and only then
creates and writes the output file.  CSV record extraction, CIDR string
parsing (`ipnet`) and template rendering (`handlebars`) are external; the
parser is abstracted as a function into the bit-path model, and a `none`
result anywhere models the corresponding panic or early `?`-return, under
which `File::create` is never reached. -/

/-- The parsing fold of `load_csv`: each record is parsed in order and a
failure (`expect`/`unwrap` panic) aborts immediately. -/
def parseAll (parse : String → Option (List Bool)) :
    List String → Option (List (List Bool))
  | [] => some []
  | r :: rest =>
    match parse r with
    | none => none
    | some p =>
      match parseAll parse rest with
      | none => none
      | some ps => some (p :: ps)

/-- `load_csv` from the source: parse every record into the range, then
`simplify` once. -/
def load_csv (parse : String → Option (List Bool)) (records : List String) :
    Option (List (List Bool)) :=
  match parseAll parse records with
  | none => none
  | some ps => some (simplify ps)

/-- Modelled from the spec: `IpRange::into_trie` — for each prefix of a
simplified set, descend from the root along its bits, creating missing
nodes, and make the node at the prefix's end terminal (discarding any
children). -/
def insertPath : Trie → List Bool → Trie
  | _, [] => .node none none
  | .node lc rc, false :: bs =>
    .node (some (insertPath (match lc with | none => .node none none | some t => t) bs)) rc
  | .node lc rc, true :: bs =>
    .node lc (some (insertPath (match rc with | none => .node none none | some t => t) bs))

/-- Modelled from the spec: `into_trie().into_boxed_node()`, whose
`unwrap` in `main` requires a root node to exist; an empty range yields
`none`. -/
def intoTrie : List (List Bool) → Option Trie
  | [] => none
  | p :: ps => some ((p :: ps).foldl insertPath (.node none none))

/-- `main` from the source with I/O abstracted: the returned `String` is
the rendered artifact that is written to the freshly created output file;
`none` means the run aborted and no file was ever created. -/
def mainModel (parse4 parse6 : String → Option (List Bool))
    (render : List Nat → List Nat → String)
    (recs4 recs6 : List String) : Option String :=
  (load_csv parse4 recs4).bind fun r4 =>
    (intoTrie r4).bind fun t4 =>
      (load_csv parse6 recs6).bind fun r6 =>
        (intoTrie r6).map fun t6 =>
          render (trie_to_nodes t4) (trie_to_nodes t6)

theorem parseAll_eq_none {parse : String → Option (List Bool)} :
    ∀ {l : List String} {r : String}, r ∈ l → parse r = none →
      parseAll parse l = none := by
  intro l
  induction l with
  | nil => intro r hr; cases hr
  | cons a rest ih =>
    intro r hr hpr
    rcases List.mem_cons.mp hr with he | hm
    · have hpa : parse a = none := by rw [← he]; exact hpr
      rw [parseAll, hpa]
    · rw [parseAll]
      rcases hpa : parse a with _ | p
      · rfl
      · rw [ih hm hpr]

/-- C6: if any record of either family fails to parse, the run aborts
before the output step and no output file is created. -/
theorem parse_failure_means_no_output
    (parse4 parse6 : String → Option (List Bool))
    (render : List Nat → List Nat → String) (recs4 recs6 : List String)
    (h : (∃ r ∈ recs4, parse4 r = none) ∨ (∃ r ∈ recs6, parse6 r = none)) :
    mainModel parse4 parse6 render recs4 recs6 = none := by
  rcases h with ⟨r, hr, hpr⟩ | ⟨r, hr, hpr⟩
  · rw [mainModel, load_csv, parseAll_eq_none hr hpr]
    rfl
  · have h6 : load_csv parse6 recs6 = none := by
      rw [load_csv, parseAll_eq_none hr hpr]
    rcases h4 : load_csv parse4 recs4 with _ | r4
    · simp [mainModel, h4]
    · rcases ht4 : intoTrie r4 with _ | t4
      · simp [mainModel, h4, ht4]
      · simp [mainModel, h4, ht4, h6]

theorem parse_failure_means_no_output_witness :
    ((∃ r ∈ ["10.0.0.0/8"], (fun _ : String => (none : Option (List Bool))) r = none) ∨
      (∃ r ∈ ([] : List String), (fun _ : String => (none : Option (List Bool))) r = none)) ∧
    mainModel (fun _ => none) (fun _ => none) (fun _ _ => "") ["10.0.0.0/8"] [] = none :=
  ⟨Or.inl ⟨"10.0.0.0/8", by simp⟩,
   parse_failure_means_no_output (fun _ => none) (fun _ => none) (fun _ _ => "")
     ["10.0.0.0/8"] [] (Or.inl ⟨"10.0.0.0/8", by simp⟩)⟩

end Ipcheck
